import Mathlib

/-!
# gobench: the statistics aggregator (`stats/stats.go`) and the sample type (`requester/types.go`)

A shallow embedding of the aggregator of the `gobench` HTTP load tester, and the
properties of its summary that the specification states.

Conventions of the embedding.

* `time.Duration` and `int64` are `Int`; every `int64` addition and subtraction of the
  source goes through `wrap64` (two's complement wrap-around).
* `float64` values are the rationals they denote.  Every `float64` operation of the
  source is the exact operation followed by `fl`, IEEE 754 round-to-nearest, ties-to-even,
  to 53 significant bits.  The values that occur are far from the overflow and the
  subnormal range of `float64`, so the exponent is left unbounded.
* A Go slice is a window `(ptr, len, cap)` on a backing array in a `Heap`; `append` writes
  in place while `len < cap` and moves to a fresh array otherwise.  The capacity the
  runtime picks on growth is the parameter `grow`.
* No `float64` operation of the source is a product feeding a sum, so no platform fuses
  two of them into one rounding.
* A run-time panic (integer division by zero, index out of range) is an `Except` error.
* `regexp.MatchString`, the outcome of each `select` and the elapsed time are parameters.
-/

namespace Gobench

/-! ## Machine integers -/

/-- Go `time.Duration`: a count of nanoseconds held in an `int64`. -/
abbrev Duration := Int

/-- Go `math.MaxInt64`. -/
def maxInt64 : Int := 9223372036854775807

/-- Go `math.MinInt64`. -/
def minInt64 : Int := -9223372036854775808

/-- Two's complement wrap-around of an integer into the `int64` range. -/
def wrap64 (x : Int) : Int :=
  (x + 9223372036854775808) % 18446744073709551616 - 9223372036854775808

/-- The integer is a value of type `int64`. -/
def isInt64 (x : Int) : Prop := minInt64 ≤ x ∧ x ≤ maxInt64

instance (x : Int) : Decidable (isInt64 x) := by
  unfold isInt64; exact inferInstance

/-! ## float64 arithmetic -/

/-- Auxiliary for `ilog2`: the position of the highest set bit of `n`, by halving,
with `fuel` bounding the number of halvings. -/
def lg : Nat → Nat → Nat
  | 0, _ => 0
  | fuel + 1, n => if n < 2 then 0 else lg fuel (n / 2) + 1

/-- The power of two `2 ^ k` as a rational, for an integer exponent. -/
def pow2 (k : Int) : ℚ :=
  if 0 ≤ k then ((2 ^ k.toNat : ℕ) : ℚ) else 1 / ((2 ^ (-k).toNat : ℕ) : ℚ)

/-- The binary exponent of a non-zero rational: the `e` with `2 ^ e ≤ |x| < 2 ^ (e + 1)`. -/
def ilog2 (x : ℚ) : Int :=
  let k : Int := (lg x.num.natAbs x.num.natAbs : Int) - (lg x.den x.den : Int)
  if pow2 k ≤ |x| then k else k - 1

/-- Round to the nearest integer, ties to the even one. -/
def rne (x : ℚ) : Int :=
  let f := x.floor
  let r := x - f
  if r < 1 / 2 then f else if 1 / 2 < r then f + 1 else if f % 2 = 0 then f else f + 1

/-- IEEE 754 rounding of a real result to `float64`: nearest value with a 53-bit
significand, ties to even. -/
def fl (x : ℚ) : ℚ :=
  if x = 0 then 0 else
    let u := pow2 (ilog2 x - 52)
    (rne (x / u) : ℚ) * u

/-- Go `float64(k)` for an integer `k`. -/
def ofInt (k : Int) : ℚ := fl (k : ℚ)

/-- Go `x + y` on `float64`. -/
def fadd (x y : ℚ) : ℚ := fl (x + y)

/-- Go `x - y` on `float64`. -/
def fsub (x y : ℚ) : ℚ := fl (x - y)

/-- Go `x * y` on `float64`. -/
def fmul (x y : ℚ) : ℚ := fl (x * y)

/-- Go `x / y` on `float64`. -/
def fdiv (x y : ℚ) : ℚ := fl (x / y)

/-- Go `int64(x)` for a `float64` `x`: truncation toward zero. -/
def truncQ (x : ℚ) : Int := if 0 ≤ x then x.floor else -((-x).floor)

/-! ## Data model -/

/-- The fields of `httpstat.Result` that the latency accessors read. -/
structure Result where
  DNSLookup : Duration
  TCPConnection : Duration
  TLSHandshake : Duration
  ServerProcessing : Duration
  deriving DecidableEq, Repr, Inhabited

/-- Go `requester.Response`: the sample one request attempt produces. -/
structure Response where
  Stat : Result
  Timeout : Bool
  Error : Bool
  StatusCode : Int
  Status : String
  deriving DecidableEq, Repr, Inhabited

/-- Go `Response.RequestLatency`. -/
def Response.RequestLatency (r : Response) : Duration :=
  wrap64 (r.Stat.DNSLookup + r.Stat.TCPConnection)

/-- Go `Response.ServerLatency`. -/
def Response.ServerLatency (r : Response) : Duration :=
  wrap64 (r.Stat.TLSHandshake + r.Stat.ServerProcessing)

/-- Go `Response.TotalLatency`. -/
def Response.TotalLatency (r : Response) : Duration :=
  wrap64 (r.RequestLatency + r.ServerLatency)

/-- Go `stats.Percentiles`. -/
structure Percentiles where
  p50 : Duration
  p75 : Duration
  p90 : Duration
  p95 : Duration
  p99 : Duration
  deriving DecidableEq, Repr, Inhabited

/-- Go `stats.LatencyStats`. -/
structure LatencyStats where
  Average : Duration
  Minimum : Duration
  Maximum : Duration
  Percentiles : Percentiles
  deriving DecidableEq, Repr, Inhabited

/-- Go `stats.Stats`. -/
structure Stats where
  RequestStats : LatencyStats
  ServerStats : LatencyStats
  TotalStats : LatencyStats
  TotalTime : Duration
  TotalErrors : Nat
  TotalTimeouts : Nat
  TotalMatches : Nat
  TotalNonMatches : Nat
  TotalRequests : Nat
  deriving DecidableEq, Repr, Inhabited

/-- The run-time panics the aggregator can raise. -/
inductive Fault where
  | divideByZero
  | indexOutOfRange
  deriving DecidableEq, Repr

instance {α : Type} [DecidableEq α] : DecidableEq (Except Fault α) := fun a b =>
  match a, b with
  | .ok x, .ok y =>
    if h : x = y then isTrue (by rw [h]) else isFalse (by intro e; cases e; exact h rfl)
  | .error x, .error y =>
    if h : x = y then isTrue (by rw [h]) else isFalse (by intro e; cases e; exact h rfl)
  | .ok _, .error _ => isFalse (by intro e; cases e)
  | .error _, .ok _ => isFalse (by intro e; cases e)

/-! ## Sample inputs -/

/-- A completed sample: status `200 OK`, request latency 3 ns, server latency 7 ns. -/
def sampleOk : Response := ⟨⟨1, 2, 3, 4⟩, false, false, 200, "200 OK"⟩

/-- A timed-out sample as `worker` builds it: both `Timeout` and `Error` are set. -/
def sampleTimeout : Response := ⟨⟨0, 0, 0, 0⟩, true, true, 0, ""⟩

/-- A sample of a failure that is not a timeout. -/
def sampleError : Response := ⟨⟨0, 0, 0, 0⟩, false, true, 0, ""⟩

/-- A second failed sample, told apart from `sampleError` by its timing. -/
def sampleError2 : Response := ⟨⟨5, 0, 0, 0⟩, false, true, 0, ""⟩

/-- A completed sample whose DNS lookup duration is `3 * 2 ^ 61` ns. -/
def sampleLate : Response := ⟨⟨6917529027641081856, 0, 0, 0⟩, false, false, 200, "200 OK"⟩

/-! ## Slices -/

/-- A Go slice header: backing array, length, capacity. -/
structure Slice where
  ptr : Nat
  len : Nat
  cap : Nat
  deriving DecidableEq, Repr

/-- The backing arrays allocated so far, indexed by `Slice.ptr`. -/
abbrev Heap := List (List Response)

/-- The elements a slice shows: the first `len` cells of its backing array. -/
def Heap.read (h : Heap) (s : Slice) : List Response :=
  (h.getD s.ptr []).take s.len

/-- Go `make([]requester.Response, 0)`. -/
def goMake (h : Heap) : Heap × Slice :=
  (h ++ [[]], ⟨h.length, 0, 0⟩)

/-- Go `append(s, x)`.  With spare capacity the cell after the last element of the
backing array is overwritten and the array stays shared; otherwise the elements are
copied to a fresh array whose capacity is `grow s.cap`, and at least `s.len + 1`. -/
def goAppend (grow : Nat → Nat) (h : Heap) (s : Slice) (x : Response) : Heap × Slice :=
  if s.len < s.cap then
    (h.set s.ptr ((h.getD s.ptr []).set s.len x), ⟨s.ptr, s.len + 1, s.cap⟩)
  else
    let newcap := max (grow s.cap) (s.len + 1)
    (h ++ [h.read s ++ x :: List.replicate (newcap - (s.len + 1)) default],
      ⟨h.length, s.len + 1, newcap⟩)

/-! ## The aggregator -/

/-- Go `countMatches`; `pattern` is `(*regexp.Regexp).MatchString`. -/
def countMatches (pattern : String → Bool) (completed : List Response) : Nat × Nat :=
  completed.foldl
    (fun (acc : Nat × Nat) response =>
      if pattern response.Status then (acc.1 + 1, acc.2) else (acc.1, acc.2 + 1))
    (0, 0)

/-- The loop state of `splitResponses`: the heap and the three slice variables. -/
structure SplitState where
  heap : Heap
  completed : Slice
  timeouts : Slice
  errors : Slice

/-- One iteration of the loop of `splitResponses`.  The second branch is the source's
`errors = append(timeouts, response)`. -/
def splitStep (grow : Nat → Nat) (st : SplitState) (response : Response) : SplitState :=
  if response.Timeout then
    let r := goAppend grow st.heap st.timeouts response
    { st with heap := r.1, timeouts := r.2 }
  else if response.Error then
    let r := goAppend grow st.heap st.timeouts response
    { st with heap := r.1, errors := r.2 }
  else
    let r := goAppend grow st.heap st.completed response
    { st with heap := r.1, completed := r.2 }

/-- The state of `splitResponses` before its loop: three `make`d empty slices. -/
def splitInit : SplitState :=
  let c := goMake []
  let t := goMake c.1
  let e := goMake t.1
  { heap := e.1, completed := c.2, timeouts := t.2, errors := e.2 }

/-- Go `splitResponses`: the contents of the returned `completed`, `timeouts` and
`errors` slices. -/
def splitResponses (grow : Nat → Nat) (allResponses : List Response) :
    List Response × List Response × List Response :=
  let st := allResponses.foldl (splitStep grow) splitInit
  (st.heap.read st.completed, st.heap.read st.timeouts, st.heap.read st.errors)

/-- Go `latencies[i]`, panicking outside the slice. -/
def index (latencies : List Duration) (i : Int) : Except Fault Duration :=
  if 0 ≤ i then
    match latencies[i.toNat]? with
    | some v => .ok v
    | none => .error .indexOutOfRange
  else .error .indexOutOfRange

/-- The `float64` rank `index` that `computePercentile` computes. -/
def rankIndex (p : Int) (n : Nat) : ℚ :=
  fadd (fdiv (fmul (ofInt p) (ofInt ((n : Int) - 1))) 100) 1

/-- The largest length of a `[]time.Duration`: the Go runtime allocates at most `maxAlloc`
bytes, `2 ^ 48` on the 64-bit platforms, and a duration takes 8 bytes. -/
def maxSliceLen : Nat := 2 ^ 45

/-- The rank of the specification, `p * (n - 1) / 100 + 1`, in exact arithmetic. -/
def specRank (p : Int) (n : Nat) : ℚ := (p : ℚ) * ((n : ℚ) - 1) / 100 + 1

/-- The rank rule of the specification in exact arithmetic: with `rank = specRank p n`,
the sample at `rank` when `rank` is whole, otherwise the sample at `floor(rank)` plus the
gap to the next sample times the fractional part of `rank`, truncated to a whole
duration.  Ranks count from one, list positions from zero. -/
def specPercentile (p : Int) (l : List Duration) : Int :=
  let rank := specRank p l.length
  let i := rank.floor
  if rank = (i : ℚ) then l.getD (i - 1).toNat 0
  else l.getD (i - 1).toNat 0 +
    truncQ (((l.getD i.toNat 0 - l.getD (i - 1).toNat 0 : Int) : ℚ) * (rank - (i : ℚ)))

/-- The value `computePercentile` returns at a `float64` rank `idx` that lies within the
slice, written with the conversions already carried out: `base` plus the truncated
product of `float64(next-base)` and the fractional part of the rank. -/
def interp (l : List Duration) (idx : ℚ) : Int :=
  l.getD (⌊idx⌋ - 1).toNat 0 +
    truncQ (fl (fl ((wrap64 (l.getD (⌊idx⌋).toNat 0 - l.getD (⌊idx⌋ - 1).toNat 0) : Int) : ℚ)
      * (idx - (⌊idx⌋ : Int))))

/-- What `computePercentile` returns at a `float64` rank `idx` that lies within the
slice: the sample at the rank when the rank is whole, the interpolated value, wrapped
to `int64`, otherwise. -/
def percentileValue (l : List Duration) (idx : ℚ) : Int :=
  if idx = (⌊idx⌋ : Int) then l.getD (⌊idx⌋ - 1).toNat 0 else wrap64 (interp l idx)

/-- Go `computePercentile`. -/
def computePercentile (p : Int) (latencies : List Duration) : Except Fault Duration :=
  let n := latencies.length
  if n = 0 then .ok 0 else
    let index := rankIndex p n
    let intIndex := truncQ index
    if index = ofInt (truncQ index) then
      Gobench.index latencies (truncQ index - 1)
    else do
      let delta := fsub index (ofInt intIndex)
      let base ← Gobench.index latencies (intIndex - 1)
      let next ← Gobench.index latencies intIndex
      .ok (wrap64 (base + truncQ (fmul (ofInt (wrap64 (next - base))) delta)))

/-- Go `computePercentiles`. -/
def computePercentiles (latencies : List Duration) : Except Fault Percentiles := do
  let p50 ← computePercentile 50 latencies
  let p75 ← computePercentile 75 latencies
  let p90 ← computePercentile 90 latencies
  let p95 ← computePercentile 95 latencies
  let p99 ← computePercentile 99 latencies
  .ok { p50 := p50, p75 := p75, p90 := p90, p95 := p95, p99 := p99 }

/-- Go `sort.Slice(latencies, func(i, j) bool { return latencies[i] < latencies[j] })`:
the ascending rearrangement of the integers. -/
def sortSlice (latencies : List Duration) : List Duration :=
  latencies.insertionSort (· ≤ ·)

/-- The accumulator `(minimum, maximum, total)` of the loop of `computeLatencyStats`. -/
def accumulate (acc : Duration × Duration × Duration) (latency : Duration) :
    Duration × Duration × Duration :=
  (if latency < acc.1 then latency else acc.1,
   if latency > acc.2.1 then latency else acc.2.1,
   wrap64 (acc.2.2 + latency))

/-- Go `computeLatencyStats`.  The division `total / time.Duration(len(latencies))` is
evaluated before the percentiles and panics on an empty slice. -/
def computeLatencyStats (completed : List Response) (latencyKey : Response → Duration) :
    Except Fault LatencyStats :=
  let latencies := sortSlice (completed.map latencyKey)
  let acc := latencies.foldl accumulate (maxInt64, minInt64, 0)
  if latencies.length = 0 then .error .divideByZero
  else do
    let average := Int.tdiv acc.2.2 (latencies.length : Int)
    let percentiles ← computePercentiles latencies
    .ok { Average := average, Minimum := acc.1, Maximum := acc.2.1,
          Percentiles := percentiles }

/-- Go `computeStats`. -/
def computeStats (grow : Nat → Nat) (pattern : String → Bool) (totalDuration : Duration)
    (allResponses : List Response) : Except Fault Stats :=
  let stats : Stats := { (default : Stats) with
    TotalTime := totalDuration, TotalRequests := allResponses.length }
  if stats.TotalRequests = 0 then .ok stats
  else do
    let split := splitResponses grow allResponses
    let counts := countMatches pattern split.1
    let requestStats ← computeLatencyStats split.1 Response.RequestLatency
    let serverStats ← computeLatencyStats split.1 Response.ServerLatency
    let totalStats ← computeLatencyStats split.1 Response.TotalLatency
    .ok { stats with
      TotalMatches := counts.1, TotalNonMatches := counts.2,
      TotalTimeouts := split.2.1.length, TotalErrors := split.2.2.length,
      RequestStats := requestStats, ServerStats := serverStats, TotalStats := totalStats }

/-- What one `select` of `CollectStats` yields: a sample from `inputCh`, the report that
`inputCh` is closed, or the firing of `ctx.Done()`. -/
inductive SelectOutcome where
  | received (response : Response)
  | closed
  | done
  deriving DecidableEq, Repr

/-- The `for i := 0; i < cfg.MaxRequests; i++ { select { ... } }` loop of `CollectStats`,
with `k` iterations left; `sel i` is what the select of iteration `i` yields.  A `break`
inside a `select` leaves the `select`, not the `for`. -/
def collectLoop (sel : Nat → SelectOutcome) : Nat → Nat → List Response → List Response
  | _, 0, allResponses => allResponses
  | i, k + 1, allResponses =>
    match sel i with
    | .received response => collectLoop sel (i + 1) k (allResponses ++ [response])
    | .closed => collectLoop sel (i + 1) k allResponses
    | .done => collectLoop sel (i + 1) k allResponses

/-- Go `CollectStats`; `elapsed` is `time.Since(start)`. -/
def CollectStats (grow : Nat → Nat) (pattern : String → Bool) (maxRequests : Nat)
    (elapsed : Duration) (sel : Nat → SelectOutcome) : Except Fault Stats :=
  computeStats grow pattern elapsed (collectLoop sel 0 maxRequests [])

theorem pow2_eq (k : Int) : pow2 k = (2 : ℚ) ^ k := by
  unfold pow2
  split
  · rename_i h
    lift k to ℕ using h
    simp
  · rename_i h
    obtain ⟨n, rfl⟩ : ∃ n : ℕ, k = -(n : ℤ) := ⟨(-k).toNat, by omega⟩
    simp [zpow_neg]

theorem pow2_pos (k : Int) : 0 < pow2 k := by
  rw [pow2_eq]; positivity

theorem lg_spec : ∀ (fuel n : Nat), 0 < n → n ≤ fuel →
    2 ^ lg fuel n ≤ n ∧ n < 2 ^ (lg fuel n + 1)
  | 0, n, h0, h => by omega
  | fuel + 1, n, h0, h => by
    unfold lg
    split
    · simp; omega
    · have ih := lg_spec fuel (n / 2) (by omega) (by omega)
      obtain ⟨h1, h2⟩ := ih
      constructor
      · rw [pow_succ]; omega
      · rw [pow_succ]; omega

theorem abs_eq_natAbs_div (x : ℚ) : |x| = (x.num.natAbs : ℚ) / (x.den : ℚ) := by
  conv_lhs => rw [← Rat.num_div_den x]
  rw [abs_div, Nat.abs_cast, Nat.cast_natAbs, Int.cast_abs]

theorem ilog2_spec (x : ℚ) (hx : x ≠ 0) :
    (2 : ℚ) ^ ilog2 x ≤ |x| ∧ |x| < (2 : ℚ) ^ (ilog2 x + 1) := by
  have ha0 : 0 < x.num.natAbs := Int.natAbs_pos.mpr (Rat.num_ne_zero.mpr hx)
  have hb0 : 0 < x.den := x.den_pos
  obtain ⟨ha1, ha2⟩ := lg_spec _ _ ha0 le_rfl
  obtain ⟨hb1, hb2⟩ := lg_spec _ _ hb0 le_rfl
  set a := x.num.natAbs with ha
  set b := x.den with hb
  set la := lg a a
  set lb := lg b b
  have hx' : |x| = (a : ℚ) / (b : ℚ) := abs_eq_natAbs_div x
  have qa1 : (2 : ℚ) ^ (la : ℤ) ≤ a := by rw [zpow_natCast]; exact_mod_cast ha1
  have qa2 : (a : ℚ) < (2 : ℚ) ^ ((la : ℤ) + 1) := by
    rw [show ((la : ℤ) + 1) = ((la + 1 : ℕ) : ℤ) by push_cast; rfl, zpow_natCast]; exact_mod_cast ha2
  have qb1 : (2 : ℚ) ^ (lb : ℤ) ≤ b := by rw [zpow_natCast]; exact_mod_cast hb1
  have qb2 : (b : ℚ) < (2 : ℚ) ^ ((lb : ℤ) + 1) := by
    rw [show ((lb : ℤ) + 1) = ((lb + 1 : ℕ) : ℤ) by push_cast; rfl, zpow_natCast]; exact_mod_cast hb2
  have hbq : (0 : ℚ) < b := by exact_mod_cast hb0
  have hupper : |x| < (2 : ℚ) ^ ((la : ℤ) - lb + 1) := by
    rw [hx', show ((la : ℤ) - lb + 1) = ((la : ℤ) + 1) - lb by ring, zpow_sub₀ (by norm_num)]
    exact div_lt_div₀ qa2 qb1 (by positivity) (by positivity)
  have hlower : (2 : ℚ) ^ ((la : ℤ) - lb - 1) ≤ |x| := by
    rw [hx', show ((la : ℤ) - lb - 1) = (la : ℤ) - (lb + 1) by ring, zpow_sub₀ (by norm_num)]
    exact div_le_div₀ (by positivity) qa1 hbq qb2.le
  unfold ilog2
  simp only [pow2_eq]
  split
  · rename_i h
    exact ⟨h, hupper⟩
  · rename_i h
    push_neg at h
    refine ⟨hlower, ?_⟩
    simpa using h

theorem rne_def (x : ℚ) : rne x =
    if x - ⌊x⌋ < 1 / 2 then ⌊x⌋ else if 1 / 2 < x - ⌊x⌋ then ⌊x⌋ + 1
    else if ⌊x⌋ % 2 = 0 then ⌊x⌋ else ⌊x⌋ + 1 := rfl

theorem rne_floor_le (x : ℚ) : ⌊x⌋ ≤ rne x := by
  rw [rne_def]; split_ifs <;> omega

theorem rne_le_floor_succ (x : ℚ) : rne x ≤ ⌊x⌋ + 1 := by
  rw [rne_def]; split_ifs <;> omega

theorem rne_intCast (k : ℤ) : rne (k : ℚ) = k := by
  rw [rne_def]; simp

theorem rne_sub_le (x : ℚ) : (rne x : ℚ) - x ≤ 1 / 2 := by
  have h1 := Int.floor_le x
  have h2 := Int.lt_floor_add_one x
  rw [rne_def]; split_ifs <;> push_cast <;> linarith

theorem sub_rne_le (x : ℚ) : x - (rne x : ℚ) ≤ 1 / 2 := by
  have h1 := Int.floor_le x
  have h2 := Int.lt_floor_add_one x
  rw [rne_def]; split_ifs <;> push_cast <;> linarith

theorem rne_mono {x y : ℚ} (h : x ≤ y) : rne x ≤ rne y := by
  have hf : ⌊x⌋ ≤ ⌊y⌋ := Int.floor_mono h
  rcases hf.lt_or_eq with hlt | heq
  · calc rne x ≤ ⌊x⌋ + 1 := rne_le_floor_succ x
      _ ≤ ⌊y⌋ := hlt
      _ ≤ rne y := rne_floor_le y
  · have hr : x - ⌊x⌋ ≤ y - ⌊y⌋ := by rw [heq]; linarith
    rw [rne_def x, rne_def y, heq]
    split_ifs <;> first | omega | (exfalso; linarith)

theorem fl_zero : fl 0 = 0 := by simp [fl]

/-- The unit in the last place that `fl` rounds `x` to. -/
theorem fl_eq (x : ℚ) (hx : x ≠ 0) :
    fl x = (rne (x / (2 : ℚ) ^ (ilog2 x - 52)) : ℚ) * (2 : ℚ) ^ (ilog2 x - 52) := by
  simp [fl, hx, pow2_eq]

theorem ilog2_le_of_le {x y : ℚ} (hx : 0 < x) (h : x ≤ y) : ilog2 x ≤ ilog2 y := by
  have hy : 0 < y := lt_of_lt_of_le hx h
  obtain ⟨h1, _⟩ := ilog2_spec x hx.ne'
  obtain ⟨_, h2⟩ := ilog2_spec y hy.ne'
  rw [abs_of_pos hx] at h1
  rw [abs_of_pos hy] at h2
  have : (2 : ℚ) ^ ilog2 x < (2 : ℚ) ^ (ilog2 y + 1) := lt_of_le_of_lt (h1.trans h) h2
  have := (zpow_lt_zpow_iff_right₀ (by norm_num : (1 : ℚ) < 2)).mp this
  omega

theorem scaled_bounds (x : ℚ) (hx : 0 < x) :
    (2 : ℚ) ^ (52 : ℤ) ≤ x / (2 : ℚ) ^ (ilog2 x - 52) ∧
      x / (2 : ℚ) ^ (ilog2 x - 52) < (2 : ℚ) ^ (53 : ℤ) := by
  obtain ⟨h1, h2⟩ := ilog2_spec x hx.ne'
  rw [abs_of_pos hx] at h1 h2
  have hu : (0 : ℚ) < (2 : ℚ) ^ (ilog2 x - 52) := by positivity
  constructor
  · rw [le_div_iff₀ hu, ← zpow_add₀ (by norm_num : (2 : ℚ) ≠ 0)]
    simpa using h1
  · rw [div_lt_iff₀ hu, ← zpow_add₀ (by norm_num : (2 : ℚ) ≠ 0)]
    have : (53 : ℤ) + (ilog2 x - 52) = ilog2 x + 1 := by ring
    rw [this]; exact h2

theorem rne_scaled_bounds (x : ℚ) (hx : 0 < x) :
    (2 : ℤ) ^ 52 ≤ rne (x / (2 : ℚ) ^ (ilog2 x - 52)) ∧
      rne (x / (2 : ℚ) ^ (ilog2 x - 52)) ≤ (2 : ℤ) ^ 53 := by
  obtain ⟨h1, h2⟩ := scaled_bounds x hx
  constructor
  · have := rne_mono h1
    rw [show ((2 : ℚ) ^ (52 : ℤ)) = (((2 : ℤ) ^ 52 : ℤ) : ℚ) by norm_num, rne_intCast] at this
    exact this
  · have := rne_mono h2.le
    rw [show ((2 : ℚ) ^ (53 : ℤ)) = (((2 : ℤ) ^ 53 : ℤ) : ℚ) by norm_num, rne_intCast] at this
    exact this

theorem fl_pos_bounds (x : ℚ) (hx : 0 < x) :
    (2 : ℚ) ^ ilog2 x ≤ fl x ∧ fl x ≤ (2 : ℚ) ^ (ilog2 x + 1) := by
  obtain ⟨h1, h2⟩ := rne_scaled_bounds x hx
  rw [fl_eq x hx.ne']
  have hu : (0 : ℚ) < (2 : ℚ) ^ (ilog2 x - 52) := by positivity
  have e1 : (2 : ℚ) ^ ilog2 x = (2 : ℚ) ^ (52 : ℤ) * (2 : ℚ) ^ (ilog2 x - 52) := by
    rw [← zpow_add₀ (by norm_num : (2 : ℚ) ≠ 0)]; congr 1; ring
  have e2 : (2 : ℚ) ^ (ilog2 x + 1) = (2 : ℚ) ^ (53 : ℤ) * (2 : ℚ) ^ (ilog2 x - 52) := by
    rw [← zpow_add₀ (by norm_num : (2 : ℚ) ≠ 0)]; congr 1; ring
  rw [e1, e2]
  constructor
  · apply mul_le_mul_of_nonneg_right _ hu.le
    have h3 := (Int.cast_le (R := ℚ)).mpr h1
    norm_num at h3 ⊢; exact h3
  · apply mul_le_mul_of_nonneg_right _ hu.le
    have h3 := (Int.cast_le (R := ℚ)).mpr h2
    norm_num at h3 ⊢; exact h3

theorem fl_nonneg {x : ℚ} (hx : 0 ≤ x) : 0 ≤ fl x := by
  rcases hx.eq_or_lt with h | h
  · rw [← h, fl_zero]
  · exact le_trans (by positivity) (fl_pos_bounds x h).1

theorem fl_pos {x : ℚ} (hx : 0 < x) : 0 < fl x :=
  lt_of_lt_of_le (by positivity) (fl_pos_bounds x hx).1

/-- Rounding is monotone on the non-negative rationals. -/
theorem fl_mono {x y : ℚ} (hx : 0 ≤ x) (h : x ≤ y) : fl x ≤ fl y := by
  rcases hx.eq_or_lt with h0 | h0
  · rw [← h0, fl_zero]; exact fl_nonneg (hx.trans h)
  · have hy : 0 < y := lt_of_lt_of_le h0 h
    have he := ilog2_le_of_le h0 h
    rcases he.lt_or_eq with hlt | heq
    · calc fl x ≤ (2 : ℚ) ^ (ilog2 x + 1) := (fl_pos_bounds x h0).2
        _ ≤ (2 : ℚ) ^ ilog2 y := zpow_le_zpow_right₀ (by norm_num) (by omega)
        _ ≤ fl y := (fl_pos_bounds y hy).1
    · rw [fl_eq x h0.ne', fl_eq y hy.ne', heq]
      have hu : (0 : ℚ) < (2 : ℚ) ^ (ilog2 y - 52) := by positivity
      apply mul_le_mul_of_nonneg_right _ hu.le
      exact_mod_cast rne_mono (div_le_div_of_nonneg_right h hu.le)

/-- A positive rational with a significand below `2 ^ 53` is a `float64`: rounding
leaves it unchanged. -/
theorem fl_repr (m k : ℤ) (hm0 : 0 < m) (hm : m < 2 ^ 53) :
    fl ((m : ℚ) * (2 : ℚ) ^ k) = (m : ℚ) * (2 : ℚ) ^ k := by
  have hmq : (0 : ℚ) < m := by exact_mod_cast hm0
  have hxpos : (0 : ℚ) < (m : ℚ) * (2 : ℚ) ^ k := by positivity
  obtain ⟨h1, _⟩ := ilog2_spec _ hxpos.ne'
  rw [abs_of_pos hxpos] at h1
  have hlt : (m : ℚ) * (2 : ℚ) ^ k < (2 : ℚ) ^ (53 + k) := by
    rw [zpow_add₀ (by norm_num : (2 : ℚ) ≠ 0)]
    apply mul_lt_mul_of_pos_right _ (by positivity)
    have h3 : (m : ℚ) < (((2 : ℤ) ^ 53 : ℤ) : ℚ) := by exact_mod_cast hm
    norm_num at h3 ⊢; exact h3
  have he : ilog2 ((m : ℚ) * (2 : ℚ) ^ k) < 53 + k :=
    (zpow_lt_zpow_iff_right₀ (by norm_num : (1 : ℚ) < 2)).mp (lt_of_le_of_lt h1 hlt)
  rw [fl_eq _ hxpos.ne']
  generalize ilog2 ((m : ℚ) * (2 : ℚ) ^ k) = e at he
  obtain ⟨j, hj⟩ : ∃ j : ℕ, k = (e - 52) + j := ⟨(k - (e - 52)).toNat, by omega⟩
  have h2k : (2 : ℚ) ^ k = (2 : ℚ) ^ (j : ℤ) * (2 : ℚ) ^ (e - 52) := by
    rw [← zpow_add₀ (by norm_num : (2 : ℚ) ≠ 0)]; congr 1; omega
  have hu : (2 : ℚ) ^ (e - 52) ≠ 0 := by positivity
  have hdiv : (m : ℚ) * (2 : ℚ) ^ k / (2 : ℚ) ^ (e - 52) = ((m * 2 ^ j : ℤ) : ℚ) := by
    rw [h2k]; field_simp; ring
  rw [hdiv, rne_intCast, h2k]; push_cast; rw [zpow_natCast]; ring

/-- Integers up to `2 ^ 53` are `float64` values. -/
theorem fl_intCast (n : ℤ) (h0 : 0 ≤ n) (h : n ≤ 2 ^ 53) : fl (n : ℚ) = n := by
  rcases h0.eq_or_lt with h1 | h1
  · rw [← h1]; simpa using fl_zero
  · rcases h.eq_or_lt with h2 | h2
    · have := fl_repr 1 53 (by norm_num) (by norm_num)
      rw [h2]; norm_num at this ⊢; exact this
    · simpa using fl_repr n 0 h1 h2

theorem fl_one : fl 1 = 1 := by simpa using fl_intCast 1 (by norm_num) (by norm_num)

/-- The result of a rounding is again a `float64`: rounding is idempotent. -/
theorem fl_idem {x : ℚ} (hx : 0 ≤ x) : fl (fl x) = fl x := by
  rcases hx.eq_or_lt with h | h
  · rw [← h, fl_zero, fl_zero]
  · obtain ⟨h1, h2⟩ := rne_scaled_bounds x h
    rw [fl_eq x h.ne']
    rcases h2.eq_or_lt with h3 | h3
    · rw [h3]
      have := fl_repr 1 (ilog2 x + 1) (by norm_num) (by norm_num)
      have e2 : (((2 : ℤ) ^ 53 : ℤ) : ℚ) * (2 : ℚ) ^ (ilog2 x - 52)
          = ((1 : ℤ) : ℚ) * (2 : ℚ) ^ (ilog2 x + 1) := by
        have : (2 : ℚ) ^ (ilog2 x + 1) = (2 : ℚ) ^ (53 : ℤ) * (2 : ℚ) ^ (ilog2 x - 52) := by
          rw [← zpow_add₀ (by norm_num : (2 : ℚ) ≠ 0)]; congr 1; ring
        rw [this]; norm_num
      rw [e2]; exact this
    · exact fl_repr _ _ (by linarith [show (0 : ℤ) < 2 ^ 52 by norm_num]) h3

/-- The rounding error is at most half a unit in the last place: `2 ^ -53` relative. -/
theorem fl_le_mul {x : ℚ} (hx : 0 ≤ x) : fl x ≤ x * (1 + 1 / 2 ^ 53) := by
  rcases hx.eq_or_lt with h | h
  · rw [← h, fl_zero]; simp
  · obtain ⟨h1, _⟩ := ilog2_spec x h.ne'
    rw [abs_of_pos h] at h1
    rw [fl_eq x h.ne']
    have hu : (0 : ℚ) < (2 : ℚ) ^ (ilog2 x - 52) := by positivity
    have hr := rne_sub_le (x / (2 : ℚ) ^ (ilog2 x - 52))
    have e1 : (2 : ℚ) ^ ilog2 x = (2 : ℚ) ^ (52 : ℤ) * (2 : ℚ) ^ (ilog2 x - 52) := by
      rw [← zpow_add₀ (by norm_num : (2 : ℚ) ≠ 0)]; congr 1; ring
    generalize (2 : ℚ) ^ (ilog2 x - 52) = u at *
    generalize (rne (x / u) : ℚ) = r at *
    have h3 : r * u ≤ x + u / 2 := by
      have : r ≤ x / u + 1 / 2 := by linarith
      calc r * u ≤ (x / u + 1 / 2) * u := mul_le_mul_of_nonneg_right this hu.le
        _ = x + u / 2 := by field_simp; ring
    have h4 : (2 : ℚ) ^ (52 : ℤ) * u ≤ x := by rw [← e1]; exact h1
    norm_num at h4
    nlinarith

theorem sub_le_fl {x : ℚ} (hx : 0 ≤ x) : x * (1 - 1 / 2 ^ 53) ≤ fl x := by
  rcases hx.eq_or_lt with h | h
  · rw [← h, fl_zero]; simp
  · obtain ⟨h1, _⟩ := ilog2_spec x h.ne'
    rw [abs_of_pos h] at h1
    rw [fl_eq x h.ne']
    have hu : (0 : ℚ) < (2 : ℚ) ^ (ilog2 x - 52) := by positivity
    have hr := sub_rne_le (x / (2 : ℚ) ^ (ilog2 x - 52))
    have e1 : (2 : ℚ) ^ ilog2 x = (2 : ℚ) ^ (52 : ℤ) * (2 : ℚ) ^ (ilog2 x - 52) := by
      rw [← zpow_add₀ (by norm_num : (2 : ℚ) ≠ 0)]; congr 1; ring
    generalize (2 : ℚ) ^ (ilog2 x - 52) = u at *
    generalize (rne (x / u) : ℚ) = r at *
    have h3 : x - u / 2 ≤ r * u := by
      have : x / u - 1 / 2 ≤ r := by linarith
      calc x - u / 2 = (x / u - 1 / 2) * u := by field_simp; ring
        _ ≤ r * u := mul_le_mul_of_nonneg_right this hu.le
    have h4 : (2 : ℚ) ^ (52 : ℤ) * u ≤ x := by rw [← e1]; exact h1
    norm_num at h4
    nlinarith

theorem ilog2_nonneg_of_one_le {w : ℚ} (hw : 1 ≤ w) : 0 ≤ ilog2 w := by
  have hpos : 0 < w := by linarith
  obtain ⟨_, h2⟩ := ilog2_spec w hpos.ne'
  rw [abs_of_pos hpos] at h2
  have : (2 : ℚ) ^ (0 : ℤ) < (2 : ℚ) ^ (ilog2 w + 1) := by
    rw [zpow_zero]; exact lt_of_le_of_lt hw h2
  have := (zpow_lt_zpow_iff_right₀ (by norm_num : (1 : ℚ) < 2)).mp this
  omega

/-- A `float64` that is at least one is a multiple of `2 ^ -52`. -/
theorem fl_mul_two_pow {w : ℚ} (hw : 1 ≤ w) : ∃ K : ℤ, fl w * 2 ^ 52 = K := by
  have hpos : 0 < w := by linarith
  have he := ilog2_nonneg_of_one_le hw
  rw [fl_eq w hpos.ne']
  obtain ⟨j, hj⟩ : ∃ j : ℕ, ilog2 w = j := ⟨(ilog2 w).toNat, by omega⟩
  refine ⟨rne (w / (2 : ℚ) ^ (ilog2 w - 52)) * 2 ^ j, ?_⟩
  have : (2 : ℚ) ^ (ilog2 w - 52) * 2 ^ 52 = (2 : ℚ) ^ (j : ℤ) := by
    rw [hj, zpow_sub₀ (by norm_num : (2 : ℚ) ≠ 0)]; norm_num
  rw [mul_assoc, this]; push_cast; rw [zpow_natCast]

theorem one_le_fl {w : ℚ} (hw : 1 ≤ w) : 1 ≤ fl w := by
  have := fl_mono (by norm_num : (0 : ℚ) ≤ 1) hw
  rwa [fl_one] at this

/-- Truncating a `float64` that is at least one gives a `float64`: the conversion
`float64(int64(x))` is exact. -/
theorem fl_floor_fl {w : ℚ} (hw : 1 ≤ w) : fl ((⌊fl w⌋ : ℤ) : ℚ) = (⌊fl w⌋ : ℤ) := by
  have hpos : 0 < w := by linarith
  have hv := one_le_fl hw
  have hi : (1 : ℤ) ≤ ⌊fl w⌋ := by
    rw [Int.le_floor]; simpa using hv
  by_cases he : 52 ≤ ilog2 w
  · obtain ⟨j, hj⟩ : ∃ j : ℕ, ilog2 w - 52 = j := ⟨(ilog2 w - 52).toNat, by omega⟩
    have hint : fl w = ((rne (w / (2 : ℚ) ^ (ilog2 w - 52)) * 2 ^ j : ℤ) : ℚ) := by
      rw [fl_eq w hpos.ne', hj]; push_cast; rw [zpow_natCast]
    have hfloor : ((⌊fl w⌋ : ℤ) : ℚ) = fl w := by
      rw [hint, Int.floor_intCast]
    rw [hfloor]; exact fl_idem hpos.le
  · have h2 := (fl_pos_bounds w hpos).2
    have h3 : (2 : ℚ) ^ (ilog2 w + 1) ≤ (2 : ℚ) ^ (52 : ℤ) :=
      zpow_le_zpow_right₀ (by norm_num) (by omega)
    have h4 : fl w ≤ (((2 : ℤ) ^ 52 : ℤ) : ℚ) := by
      have := h2.trans h3; norm_num at this ⊢; exact this
    have h5 : ⌊fl w⌋ ≤ (2 : ℤ) ^ 52 := by
      have := Int.floor_mono h4
      rwa [Int.floor_intCast] at this
    exact fl_intCast _ (by omega) (by omega)

/-- The fractional part of a `float64` that is at least one is a `float64`, and it is
at most `1 - 2 ^ -52`. -/
theorem fl_fract {w : ℚ} (hw : 1 ≤ w) :
    fl (fl w - (⌊fl w⌋ : ℤ)) = fl w - (⌊fl w⌋ : ℤ) ∧
      fl w - (⌊fl w⌋ : ℤ) ≤ 1 - 1 / 2 ^ 52 := by
  obtain ⟨K, hK⟩ := fl_mul_two_pow hw
  have h1 := Int.floor_le (fl w)
  have h2 := Int.lt_floor_add_one (fl w)
  have hv : fl w = (K : ℚ) / 2 ^ 52 := by rw [← hK]; field_simp
  have hd : fl w - (⌊fl w⌋ : ℤ) = ((K - ⌊fl w⌋ * 2 ^ 52 : ℤ) : ℚ) * (2 : ℚ) ^ (-52 : ℤ) := by
    have e : (2 : ℚ) ^ (-52 : ℤ) = 1 / 2 ^ 52 := by norm_num [zpow_neg]
    push_cast; rw [← hK, e]; ring
  have hlo : 0 ≤ K - ⌊fl w⌋ * 2 ^ 52 := by
    have : (0 : ℚ) ≤ ((K - ⌊fl w⌋ * 2 ^ 52 : ℤ) : ℚ) := by
      push_cast; rw [← hK]; nlinarith
    exact_mod_cast this
  have hhi : K - ⌊fl w⌋ * 2 ^ 52 < 2 ^ 52 := by
    have : ((K - ⌊fl w⌋ * 2 ^ 52 : ℤ) : ℚ) < (((2 : ℤ) ^ 52 : ℤ) : ℚ) := by
      push_cast; rw [← hK]; nlinarith
    exact_mod_cast this
  constructor
  · rw [hd]
    rcases hlo.eq_or_lt with h0 | h0
    · rw [← h0]; simpa using fl_zero
    · exact fl_repr _ _ h0 (by omega)
  · rw [hd]
    have : ((K - ⌊fl w⌋ * 2 ^ 52 : ℤ) : ℚ) ≤ (((2 : ℤ) ^ 52 - 1 : ℤ) : ℚ) := by
      exact_mod_cast (by omega : K - ⌊fl w⌋ * 2 ^ 52 ≤ 2 ^ 52 - 1)
    norm_num at this ⊢
    linarith

theorem rankIndex_eq (p : ℤ) (n : ℕ) :
    rankIndex p n = fl (fl (fl (fl (p : ℚ) * fl (((n : ℤ) - 1 : ℤ) : ℚ)) / 100) + 1) := rfl

theorem pred_cast_nonneg {n : ℕ} (hn : 1 ≤ n) : (0 : ℚ) ≤ (((n : ℤ) - 1 : ℤ) : ℚ) := by
  have : (0 : ℤ) ≤ (n : ℤ) - 1 := by omega
  exact_mod_cast this

theorem rankIndex_arg_nonneg (p : ℤ) (n : ℕ) (hp : 0 ≤ p) (hn : 1 ≤ n) :
    0 ≤ fl (fl (fl (p : ℚ) * fl (((n : ℤ) - 1 : ℤ) : ℚ)) / 100) := by
  have h1 : (0 : ℚ) ≤ fl (p : ℚ) := fl_nonneg (by exact_mod_cast hp)
  have h2 := fl_nonneg (pred_cast_nonneg hn)
  have h3 := fl_nonneg (mul_nonneg h1 h2)
  exact fl_nonneg (by positivity)

/-- The rank is at least one. -/
theorem one_le_rankIndex (p : ℤ) (n : ℕ) (hp : 0 ≤ p) (hn : 1 ≤ n) : 1 ≤ rankIndex p n := by
  rw [rankIndex_eq]
  exact one_le_fl (by linarith [rankIndex_arg_nonneg p n hp hn])

/-- The rank grows with the percentile. -/
theorem rankIndex_mono (p q : ℤ) (n : ℕ) (hp : 0 ≤ p) (hpq : p ≤ q) (hn : 1 ≤ n) :
    rankIndex p n ≤ rankIndex q n := by
  rw [rankIndex_eq, rankIndex_eq]
  have hpc : (0 : ℚ) ≤ (p : ℚ) := by exact_mod_cast hp
  have hpqc : (p : ℚ) ≤ (q : ℚ) := by exact_mod_cast hpq
  have h1 : (0 : ℚ) ≤ fl (p : ℚ) := fl_nonneg hpc
  have h1' : fl (p : ℚ) ≤ fl (q : ℚ) := fl_mono hpc hpqc
  have h2 := fl_nonneg (pred_cast_nonneg hn)
  have h3 := fl_nonneg (mul_nonneg h1 h2)
  have h3' := fl_mono (mul_nonneg h1 h2) (mul_le_mul_of_nonneg_right h1' h2)
  have h4 := rankIndex_arg_nonneg p n hp hn
  have h4' := fl_mono (div_nonneg h3 (by norm_num : (0 : ℚ) ≤ 100))
    (div_le_div_of_nonneg_right h3' (by norm_num : (0 : ℚ) ≤ 100))
  exact fl_mono (by linarith) (by linarith)

theorem rank_chain (t m y z w : ℚ) (ht : 1 ≤ t) (hm : m ≤ t * (1 + 1 / 2 ^ 53))
    (hy : y ≤ 99 * m * (1 + 1 / 2 ^ 53)) (hz : z ≤ y / 100 * (1 + 1 / 2 ^ 53))
    (hw : w ≤ (z + 1) * (1 + 1 / 2 ^ 53)) : w ≤ t + 1 := by
  norm_num at hm hy hz hw
  linarith

/-- The rank of a percentile below one hundred does not exceed the number of samples,
whatever that number is. -/
theorem rankIndex_le (p : ℤ) (n : ℕ) (hp : 0 ≤ p) (hp99 : p ≤ 99) (hn : 1 ≤ n) :
    rankIndex p n ≤ n := by
  rw [rankIndex_eq]
  have hpc : (0 : ℚ) ≤ (p : ℚ) := by exact_mod_cast hp
  have hpf : fl (p : ℚ) = p := fl_intCast p hp (by omega)
  rw [hpf]
  rcases Nat.eq_or_lt_of_le hn with h1 | h1
  · subst h1
    norm_num [fl_zero, fl_one]
  · have ht := pred_cast_nonneg hn
    have hm0 := fl_nonneg ht
    have hm := fl_le_mul ht
    have hy0 := fl_nonneg (mul_nonneg hpc hm0)
    have hy := fl_le_mul (mul_nonneg hpc hm0)
    have hpm : (p : ℚ) * fl (((n : ℤ) - 1 : ℤ) : ℚ) ≤ 99 * fl (((n : ℤ) - 1 : ℤ) : ℚ) := by
      apply mul_le_mul_of_nonneg_right _ hm0
      exact_mod_cast hp99
    have hz0 := fl_nonneg (div_nonneg hy0 (by norm_num : (0 : ℚ) ≤ 100))
    have hz := fl_le_mul (div_nonneg hy0 (by norm_num : (0 : ℚ) ≤ 100))
    have hi := fl_le_mul (by linarith : (0 : ℚ) ≤
      fl (fl ((p : ℚ) * fl (((n : ℤ) - 1 : ℤ) : ℚ)) / 100) + 1)
    have hn2 : (1 : ℚ) ≤ (((n : ℤ) - 1 : ℤ) : ℚ) := by
      have : (1 : ℤ) ≤ (n : ℤ) - 1 := by omega
      exact_mod_cast this
    have hc : (0 : ℚ) ≤ 1 + 1 / 2 ^ 53 := by norm_num
    have hy' := hy.trans (mul_le_mul_of_nonneg_right hpm hc)
    have := rank_chain _ _ _ _ _ hn2 hm hy' hz hi
    have hcast : (((n : ℤ) - 1 : ℤ) : ℚ) + 1 = (n : ℚ) := by push_cast; ring
    rwa [hcast] at this

theorem wrap64_of_isInt64 {x : ℤ} (h : isInt64 x) : wrap64 x = x := by
  unfold isInt64 minInt64 maxInt64 at h
  unfold wrap64; omega

theorem wrap64_add_left (a b : ℤ) : wrap64 (wrap64 a + b) = wrap64 (a + b) := by
  unfold wrap64; omega

theorem isInt64_wrap64 (x : ℤ) : isInt64 (wrap64 x) := by
  unfold isInt64 minInt64 maxInt64 wrap64; omega

theorem truncQ_of_nonneg {x : ℚ} (h : 0 ≤ x) : truncQ x = ⌊x⌋ := by
  unfold truncQ; rw [if_pos h]; rfl

theorem index_of_lt (l : List Duration) (i : ℤ) (h0 : 0 ≤ i) (h : i < l.length) :
    index l i = .ok (l.getD i.toNat 0) := by
  unfold index
  rw [if_pos h0]
  have hlt : i.toNat < l.length := by omega
  rw [List.getElem?_eq_getElem hlt, List.getD_eq_getElem _ _ hlt]

/-- The conversions around the rank in `computePercentile` are exact: `int64(index)` is
the floor, `float64(int64(index))` is that integer, and `delta` is the fractional part. -/
theorem rankIndex_conv (p : ℤ) (n : ℕ) (hp : 0 ≤ p) (hn : 1 ≤ n) :
    truncQ (rankIndex p n) = ⌊rankIndex p n⌋ ∧
    ofInt (truncQ (rankIndex p n)) = (⌊rankIndex p n⌋ : ℤ) ∧
    fsub (rankIndex p n) (ofInt (truncQ (rankIndex p n))) =
      rankIndex p n - (⌊rankIndex p n⌋ : ℤ) ∧
    rankIndex p n - (⌊rankIndex p n⌋ : ℤ) ≤ 1 - 1 / 2 ^ 52 := by
  have h1 := one_le_rankIndex p n hp hn
  have ht : truncQ (rankIndex p n) = ⌊rankIndex p n⌋ := truncQ_of_nonneg (by linarith)
  have hw : (1 : ℚ) ≤ fl (fl (fl (p : ℚ) * fl (((n : ℤ) - 1 : ℤ) : ℚ)) / 100) + 1 := by
    linarith [rankIndex_arg_nonneg p n hp hn]
  have hfloor := fl_floor_fl hw
  have hfr := fl_fract hw
  rw [← rankIndex_eq] at hfloor hfr
  refine ⟨ht, ?_, ?_, hfr.2⟩
  · rw [ht]; exact hfloor
  · rw [ht]; unfold fsub; unfold ofInt; rw [hfloor]; exact hfr.1

/-- The interpolation term stays between zero and the gap it interpolates, even when
`float64(next-base)` rounds the gap up. -/
theorem interp_term_bounds (d : ℤ) (δ : ℚ) (hd : 0 ≤ d) (h0 : 0 ≤ δ)
    (h1 : δ ≤ 1 - 1 / 2 ^ 52) :
    0 ≤ truncQ (fl (fl (d : ℚ) * δ)) ∧ truncQ (fl (fl (d : ℚ) * δ)) ≤ d := by
  have hdq : (0 : ℚ) ≤ (d : ℚ) := by exact_mod_cast hd
  have hD := fl_nonneg hdq
  have hprod : 0 ≤ fl (d : ℚ) * δ := mul_nonneg hD h0
  have hfp := fl_nonneg hprod
  rw [truncQ_of_nonneg hfp]
  refine ⟨Int.floor_nonneg.mpr hfp, ?_⟩
  rcases hd.eq_or_lt with hz | hpos
  · rw [← hz]; simp [fl_zero]
  · have hxpos : (0 : ℚ) < (d : ℚ) := by exact_mod_cast hpos
    obtain ⟨hM1, hM2⟩ := rne_scaled_bounds (d : ℚ) hxpos
    have hle : fl (fl (d : ℚ) * δ) ≤ (d : ℚ) := by
      have hu : (0 : ℚ) < (2 : ℚ) ^ (ilog2 (d : ℚ) - 52) := by positivity
      have hr := rne_sub_le ((d : ℚ) / (2 : ℚ) ^ (ilog2 (d : ℚ) - 52))
      have hrepr := fl_repr (rne ((d : ℚ) / (2 : ℚ) ^ (ilog2 (d : ℚ) - 52)) - 1)
        (ilog2 (d : ℚ) - 52) (by linarith [show (0 : ℤ) < 2 ^ 52 by norm_num]) (by omega)
      have hM1q : ((2 : ℚ) ^ 52) ≤ (rne ((d : ℚ) / (2 : ℚ) ^ (ilog2 (d : ℚ) - 52)) : ℚ) := by
        have := (Int.cast_le (R := ℚ)).mpr hM1
        norm_num at this ⊢; exact this
      rw [fl_eq _ hxpos.ne'] at hprod ⊢
      generalize (2 : ℚ) ^ (ilog2 (d : ℚ) - 52) = u at *
      generalize rne ((d : ℚ) / u) = M at *
      have hMu : (M : ℚ) * u ≤ (d : ℚ) + u / 2 := by
        have : (M : ℚ) ≤ (d : ℚ) / u + 1 / 2 := by linarith
        calc (M : ℚ) * u ≤ ((d : ℚ) / u + 1 / 2) * u := mul_le_mul_of_nonneg_right this hu.le
          _ = (d : ℚ) + u / 2 := by field_simp; ring
      have hstep : (M : ℚ) * u * δ ≤ ((M - 1 : ℤ) : ℚ) * u := by
        push_cast
        have hMu0 : 0 ≤ (M : ℚ) * u := by positivity
        have h2 : (M : ℚ) * u * δ ≤ (M : ℚ) * u * (1 - 1 / 2 ^ 52) :=
          mul_le_mul_of_nonneg_left h1 hMu0
        have h3 : u ≤ (M : ℚ) * u * (1 / 2 ^ 52) := by
          have : (2 : ℚ) ^ 52 * u ≤ (M : ℚ) * u := mul_le_mul_of_nonneg_right hM1q hu.le
          norm_num at this ⊢; linarith
        linarith
      have := fl_mono hprod hstep
      rw [hrepr] at this
      push_cast at this
      linarith
    have : ⌊fl (fl (d : ℚ) * δ)⌋ ≤ ⌊(d : ℚ)⌋ := Int.floor_mono hle
    rwa [Int.floor_intCast] at this

/-- The interpolation term grows with the fractional part of the rank. -/
theorem interp_term_mono (d : ℤ) (δ δ' : ℚ) (hd : 0 ≤ d) (h0 : 0 ≤ δ) (h : δ ≤ δ') :
    truncQ (fl (fl (d : ℚ) * δ)) ≤ truncQ (fl (fl (d : ℚ) * δ')) := by
  have hdq : (0 : ℚ) ≤ (d : ℚ) := by exact_mod_cast hd
  have hD := fl_nonneg hdq
  have hprod : 0 ≤ fl (d : ℚ) * δ := mul_nonneg hD h0
  have hprod' : 0 ≤ fl (d : ℚ) * δ' := mul_nonneg hD (h0.trans h)
  rw [truncQ_of_nonneg (fl_nonneg hprod), truncQ_of_nonneg (fl_nonneg hprod')]
  exact Int.floor_mono (fl_mono hprod (mul_le_mul_of_nonneg_left h hD))

theorem floor_rankIndex_bounds (p : ℤ) (n : ℕ) (hp : 0 ≤ p) (hp99 : p ≤ 99) (hn : 1 ≤ n) :
    1 ≤ ⌊rankIndex p n⌋ ∧ ⌊rankIndex p n⌋ ≤ n ∧
      (rankIndex p n ≠ (⌊rankIndex p n⌋ : ℤ) → ⌊rankIndex p n⌋ < n) := by
  have h1 := one_le_rankIndex p n hp hn
  have h2 := rankIndex_le p n hp hp99 hn
  have hf1 : (1 : ℤ) ≤ ⌊rankIndex p n⌋ := by rw [Int.le_floor]; simpa using h1
  have hf2 : ⌊rankIndex p n⌋ ≤ (n : ℤ) := by
    have := Int.floor_mono h2
    rwa [show ((n : ℚ)) = (((n : ℤ) : ℤ) : ℚ) by simp, Int.floor_intCast] at this
  refine ⟨hf1, hf2, fun hne => ?_⟩
  rcases hf2.lt_or_eq with h | h
  · exact h
  · exfalso
    apply hne
    have h3 := Int.floor_le (rankIndex p n)
    rw [h] at h3 ⊢
    push_cast at h3 ⊢
    linarith

/-- Where the floor of the rank lies within the slice, and strictly within it when the
rank is not whole, `computePercentile` raises no fault and returns `percentileValue` at
the rank. -/
theorem computePercentile_eq_of_bounds (p : ℤ) (l : List Duration) (hp : 0 ≤ p)
    (hl : l ≠ []) (b2 : ⌊rankIndex p l.length⌋ ≤ l.length)
    (b3 : rankIndex p l.length ≠ (⌊rankIndex p l.length⌋ : ℤ) →
      ⌊rankIndex p l.length⌋ < l.length) :
    computePercentile p l = .ok (percentileValue l (rankIndex p l.length)) := by
  have hn : 1 ≤ l.length := List.length_pos.mpr hl
  obtain ⟨c1, c2, c3, c4⟩ := rankIndex_conv p l.length hp hn
  have b1 : (1 : ℤ) ≤ ⌊rankIndex p l.length⌋ := by
    rw [Int.le_floor]; simpa using one_le_rankIndex p l.length hp hn
  rw [c1] at c2 c3
  rw [c2] at c3
  unfold computePercentile percentileValue
  have hn0 : ¬ l.length = 0 := by omega
  simp only [hn0, if_false, c1, c2]
  by_cases hint : rankIndex p l.length = (⌊rankIndex p l.length⌋ : ℤ)
  · rw [if_pos hint, if_pos hint]
    exact index_of_lt l _ (by omega) (by omega)
  · rw [if_neg hint, if_neg hint]
    have b4 := b3 hint
    rw [c3, index_of_lt l _ (by omega : 0 ≤ ⌊rankIndex p l.length⌋ - 1) (by omega),
      index_of_lt l _ (by omega : 0 ≤ ⌊rankIndex p l.length⌋) (by omega)]
    rfl

/-- For a percentile from 0 to 99 `computePercentile` raises no fault on a non-empty
slice, whatever its length, and returns `percentileValue` at the rank. -/
theorem computePercentile_ok (p : ℤ) (l : List Duration) (hp : 0 ≤ p) (hp99 : p ≤ 99)
    (hl : l ≠ []) :
    computePercentile p l = .ok (percentileValue l (rankIndex p l.length)) := by
  have hn : 1 ≤ l.length := List.length_pos.mpr hl
  obtain ⟨_, b2, b3⟩ := floor_rankIndex_bounds p l.length hp hp99 hn
  exact computePercentile_eq_of_bounds p l hp hl b2 b3

theorem getD_mem_of_lt (l : List ℤ) (i : ℕ) (h : i < l.length) : l.getD i 0 ∈ l := by
  rw [List.getD_eq_getElem _ _ h]; exact List.getElem_mem h

theorem sorted_getD_le {l : List ℤ} (hs : l.Sorted (· ≤ ·)) {i j : ℕ} (hij : i ≤ j)
    (hj : j < l.length) : l.getD i 0 ≤ l.getD j 0 := by
  have hi : i < l.length := lt_of_le_of_lt hij hj
  rw [List.getD_eq_getElem _ _ hi, List.getD_eq_getElem _ _ hj]
  exact hs.rel_get_of_le (a := ⟨i, hi⟩) (b := ⟨j, hj⟩) hij

/-- At a whole rank the interpolated value is the sample at the rank. -/
theorem interp_of_int (l : List ℤ) (idx : ℚ) (h : idx = (⌊idx⌋ : ℤ)) :
    interp l idx = l.getD (⌊idx⌋ - 1).toNat 0 := by
  unfold interp
  have : idx - (⌊idx⌋ : ℤ) = 0 := by linarith
  rw [this, mul_zero, fl_zero, truncQ_of_nonneg le_rfl]
  simp

/-- Between two neighbouring samples of an ascending slice whose spread fits `int64`
the interpolated value lies between the two samples. -/
theorem interp_bounds (l : List ℤ) (idx : ℚ) (hs : l.Sorted (· ≤ ·))
    (hsp : ∀ a ∈ l, ∀ b ∈ l, b - a ≤ maxInt64)
    (h1 : 1 ≤ ⌊idx⌋) (h2 : ⌊idx⌋ < l.length)
    (hδ : idx - (⌊idx⌋ : ℤ) ≤ 1 - 1 / 2 ^ 52) :
    l.getD (⌊idx⌋ - 1).toNat 0 ≤ interp l idx ∧ interp l idx ≤ l.getD (⌊idx⌋).toNat 0 := by
  have hlt : (⌊idx⌋).toNat < l.length := by omega
  have hle : (⌊idx⌋ - 1).toNat ≤ (⌊idx⌋).toNat := by omega
  have hd0 := sorted_getD_le hs hle hlt
  have hd1 := hsp _ (getD_mem_of_lt l _ (lt_of_le_of_lt hle hlt)) _ (getD_mem_of_lt l _ hlt)
  have hw : wrap64 (l.getD (⌊idx⌋).toNat 0 - l.getD (⌊idx⌋ - 1).toNat 0)
      = l.getD (⌊idx⌋).toNat 0 - l.getD (⌊idx⌋ - 1).toNat 0 := by
    apply wrap64_of_isInt64
    unfold isInt64 minInt64; unfold maxInt64 at *; omega
  have h0 : 0 ≤ idx - (⌊idx⌋ : ℤ) := by linarith [Int.floor_le idx]
  obtain ⟨t0, t1⟩ := interp_term_bounds
    (l.getD (⌊idx⌋).toNat 0 - l.getD (⌊idx⌋ - 1).toNat 0) _ (by omega) h0 hδ
  unfold interp
  rw [hw]
  constructor <;> omega

/-- The interpolated value never decreases when the rank grows. -/
theorem interp_mono (l : List ℤ) (x y : ℚ) (hs : l.Sorted (· ≤ ·))
    (hsp : ∀ a ∈ l, ∀ b ∈ l, b - a ≤ maxInt64) (hxy : x ≤ y)
    (hx1 : 1 ≤ ⌊x⌋) (hy2 : ⌊y⌋ ≤ l.length) (hy3 : y ≠ (⌊y⌋ : ℤ) → ⌊y⌋ < l.length)
    (hδx : x - (⌊x⌋ : ℤ) ≤ 1 - 1 / 2 ^ 52) (hδy : y - (⌊y⌋ : ℤ) ≤ 1 - 1 / 2 ^ 52) :
    interp l x ≤ interp l y := by
  have hf : ⌊x⌋ ≤ ⌊y⌋ := Int.floor_mono hxy
  have hylow : l.getD (⌊y⌋ - 1).toNat 0 ≤ interp l y := by
    by_cases hy : y = (⌊y⌋ : ℤ)
    · rw [interp_of_int l y hy]
    · exact (interp_bounds l y hs hsp (by omega) (hy3 hy) hδy).1
  rcases hf.lt_or_eq with hlt | heq
  · have hxup := (interp_bounds l x hs hsp hx1 (by omega) hδx).2
    have hmid : l.getD (⌊x⌋).toNat 0 ≤ l.getD (⌊y⌋ - 1).toNat 0 :=
      sorted_getD_le hs (by omega) (by omega)
    omega
  · by_cases hy : y = (⌊y⌋ : ℤ)
    · have hx : x = (⌊x⌋ : ℤ) := by
        have := Int.floor_le x
        rw [heq] at this ⊢
        linarith
      rw [interp_of_int l x hx, interp_of_int l y hy, heq]
    · have hyn := hy3 hy
      have hlt : (⌊y⌋).toNat < l.length := by omega
      have hle : (⌊y⌋ - 1).toNat ≤ (⌊y⌋).toNat := by omega
      have hd0 := sorted_getD_le hs hle hlt
      have hd1 := hsp _ (getD_mem_of_lt l _ (lt_of_le_of_lt hle hlt)) _
        (getD_mem_of_lt l _ hlt)
      have hw : wrap64 (l.getD (⌊y⌋).toNat 0 - l.getD (⌊y⌋ - 1).toNat 0)
          = l.getD (⌊y⌋).toNat 0 - l.getD (⌊y⌋ - 1).toNat 0 := by
        apply wrap64_of_isInt64
        unfold isInt64 minInt64; unfold maxInt64 at *; omega
      have h0 : 0 ≤ x - (⌊x⌋ : ℤ) := by linarith [Int.floor_le x]
      have hm := interp_term_mono (l.getD (⌊y⌋).toNat 0 - l.getD (⌊y⌋ - 1).toNat 0)
        (x - (⌊y⌋ : ℤ)) (y - (⌊y⌋ : ℤ)) (by omega) (by rw [← heq]; exact h0) (by linarith)
      unfold interp
      rw [heq, hw]
      omega

theorem foldl_accumulate_min : ∀ (l : List ℤ) (m mx t a : ℤ), a ≤ m → (∀ x ∈ l, a ≤ x) →
    (a = m ∨ a ∈ l) → (l.foldl accumulate (m, mx, t)).1 = a
  | [], m, mx, t, a, _, _, h => by
    rcases h with h | h
    · simp [h]
    · simp at h
  | x :: l, m, mx, t, a, h1, h2, h3 => by
    rw [List.foldl_cons]
    unfold accumulate
    have hx : a ≤ x := h2 x (List.mem_cons_self _ _)
    apply foldl_accumulate_min l _ _ _ a
    · show a ≤ if x < m then x else m
      split <;> assumption
    · exact fun y hy => h2 y (List.mem_cons_of_mem _ hy)
    · show a = (if x < m then x else m) ∨ a ∈ l
      rcases h3 with h | h
      · left; rw [if_neg (by omega)]; exact h
      · rcases List.mem_cons.mp h with h | h
        · left; split <;> omega
        · right; exact h

theorem foldl_accumulate_max : ∀ (l : List ℤ) (m mx t a : ℤ), mx ≤ a → (∀ x ∈ l, x ≤ a) →
    (a = mx ∨ a ∈ l) → (l.foldl accumulate (m, mx, t)).2.1 = a
  | [], m, mx, t, a, _, _, h => by
    rcases h with h | h
    · simp [h]
    · simp at h
  | x :: l, m, mx, t, a, h1, h2, h3 => by
    rw [List.foldl_cons]
    unfold accumulate
    have hx : x ≤ a := h2 x (List.mem_cons_self _ _)
    apply foldl_accumulate_max l _ _ _ a
    · show (if x > mx then x else mx) ≤ a
      split <;> assumption
    · exact fun y hy => h2 y (List.mem_cons_of_mem _ hy)
    · show a = (if x > mx then x else mx) ∨ a ∈ l
      rcases h3 with h | h
      · left; rw [if_neg (by omega)]; exact h
      · rcases List.mem_cons.mp h with h | h
        · left; split <;> omega
        · right; exact h

theorem foldl_accumulate_total : ∀ (l : List ℤ) (m mx t : ℤ),
    (l.foldl accumulate (m, mx, t)).2.2 = if l = [] then t else wrap64 (t + l.sum)
  | [], m, mx, t => by simp
  | x :: l, m, mx, t => by
    rw [List.foldl_cons, show accumulate (m, mx, t) x = (if x < m then x else m,
      if x > mx then x else mx, wrap64 (t + x)) from rfl, foldl_accumulate_total l]
    simp only [List.sum_cons, reduceCtorEq, if_false]
    split
    · rename_i h; subst h; simp
    · rw [wrap64_add_left, add_assoc]

theorem sortSlice_sorted (l : List ℤ) : (sortSlice l).Sorted (· ≤ ·) :=
  List.sorted_insertionSort _ l

theorem sortSlice_perm (l : List ℤ) : (sortSlice l).Perm l :=
  List.perm_insertionSort _ l

theorem sortSlice_length (l : List ℤ) : (sortSlice l).length = l.length :=
  (sortSlice_perm l).length_eq

theorem sortSlice_eq_of_perm {l₁ l₂ : List ℤ} (h : l₁.Perm l₂) : sortSlice l₁ = sortSlice l₂ :=
  List.eq_of_perm_of_sorted
    ((sortSlice_perm l₁).trans (h.trans (sortSlice_perm l₂).symm))
    (sortSlice_sorted l₁) (sortSlice_sorted l₂)

/-- The five values `computePercentiles` returns on a non-empty slice. -/
theorem computePercentiles_ok (l : List Duration) (hl : l ≠ []) :
    computePercentiles l = .ok
      { p50 := percentileValue l (rankIndex 50 l.length),
        p75 := percentileValue l (rankIndex 75 l.length),
        p90 := percentileValue l (rankIndex 90 l.length),
        p95 := percentileValue l (rankIndex 95 l.length),
        p99 := percentileValue l (rankIndex 99 l.length) } := by
  unfold computePercentiles
  rw [computePercentile_ok 50 l (by norm_num) (by norm_num) hl,
    computePercentile_ok 75 l (by norm_num) (by norm_num) hl,
    computePercentile_ok 90 l (by norm_num) (by norm_num) hl,
    computePercentile_ok 95 l (by norm_num) (by norm_num) hl,
    computePercentile_ok 99 l (by norm_num) (by norm_num) hl]
  rfl

/-- On a non-empty list of completed samples `computeLatencyStats` raises no fault. -/
theorem computeLatencyStats_ok (completed : List Response) (key : Response → Duration)
    (hne : completed ≠ []) :
    computeLatencyStats completed key = .ok
      { Average := Int.tdiv
          ((sortSlice (completed.map key)).foldl accumulate (maxInt64, minInt64, 0)).2.2
          ((sortSlice (completed.map key)).length : ℤ),
        Minimum := ((sortSlice (completed.map key)).foldl accumulate (maxInt64, minInt64, 0)).1,
        Maximum :=
          ((sortSlice (completed.map key)).foldl accumulate (maxInt64, minInt64, 0)).2.1,
        Percentiles :=
          { p50 := percentileValue (sortSlice (completed.map key))
              (rankIndex 50 (sortSlice (completed.map key)).length),
            p75 := percentileValue (sortSlice (completed.map key))
              (rankIndex 75 (sortSlice (completed.map key)).length),
            p90 := percentileValue (sortSlice (completed.map key))
              (rankIndex 90 (sortSlice (completed.map key)).length),
            p95 := percentileValue (sortSlice (completed.map key))
              (rankIndex 95 (sortSlice (completed.map key)).length),
            p99 := percentileValue (sortSlice (completed.map key))
              (rankIndex 99 (sortSlice (completed.map key)).length) } } := by
  have hlen : (sortSlice (completed.map key)).length = completed.length := by
    rw [sortSlice_length, List.length_map]
  have hpos : 0 < completed.length := List.length_pos.mpr hne
  have hs : sortSlice (completed.map key) ≠ [] := by
    intro h; rw [h] at hlen; simp at hlen; omega
  unfold computeLatencyStats
  have hn0 : ¬ (sortSlice (completed.map key)).length = 0 := by omega
  simp only [hn0, if_false]
  rw [computePercentiles_ok _ hs]
  rfl

theorem mem_iff_getD (l : List ℤ) (x : ℤ) (h : x ∈ l) : ∃ i, i < l.length ∧ l.getD i 0 = x := by
  obtain ⟨i, hi, rfl⟩ := List.mem_iff_getElem.mp h
  exact ⟨i, hi, List.getD_eq_getElem _ _ hi⟩

/-- On an ascending non-empty slice of `int64` values the loop of `computeLatencyStats`
leaves the first element in `minimum` and the last in `maximum`. -/
theorem foldl_accumulate_sorted (s : List ℤ) (hs : s.Sorted (· ≤ ·)) (hne : s ≠ [])
    (hr : ∀ x ∈ s, isInt64 x) :
    (s.foldl accumulate (maxInt64, minInt64, 0)).1 = s.getD 0 0 ∧
      (s.foldl accumulate (maxInt64, minInt64, 0)).2.1 = s.getD (s.length - 1) 0 := by
  have hpos : 0 < s.length := List.length_pos.mpr hne
  constructor
  · apply foldl_accumulate_min
    · exact (hr _ (getD_mem_of_lt s 0 hpos)).2
    · intro x hx
      obtain ⟨i, hi, rfl⟩ := mem_iff_getD s x hx
      exact sorted_getD_le hs (Nat.zero_le i) hi
    · right; exact getD_mem_of_lt s 0 hpos
  · apply foldl_accumulate_max
    · exact (hr _ (getD_mem_of_lt s _ (by omega))).1
    · intro x hx
      obtain ⟨i, hi, rfl⟩ := mem_iff_getD s x hx
      exact sorted_getD_le hs (by omega) (by omega)
    · right; exact getD_mem_of_lt s _ (by omega)

/-- Where the rank lies within an ascending slice whose spread fits `int64`, the value
`computePercentile` returns is the interpolated one: the final addition does not wrap. -/
theorem percentileValue_eq_interp (l : List ℤ) (idx : ℚ) (hs : l.Sorted (· ≤ ·))
    (hr : ∀ x ∈ l, isInt64 x) (hsp : ∀ a ∈ l, ∀ b ∈ l, b - a ≤ maxInt64)
    (h1 : 1 ≤ ⌊idx⌋) (h3 : idx ≠ (⌊idx⌋ : ℤ) → ⌊idx⌋ < l.length)
    (hδ : idx - (⌊idx⌋ : ℤ) ≤ 1 - 1 / 2 ^ 52) :
    percentileValue l idx = interp l idx := by
  unfold percentileValue
  by_cases h : idx = (⌊idx⌋ : ℤ)
  · rw [if_pos h, interp_of_int l idx h]
  · rw [if_neg h]
    have hlt := h3 h
    obtain ⟨b1, b2⟩ := interp_bounds l idx hs hsp h1 hlt hδ
    have m1 := hr _ (getD_mem_of_lt l (⌊idx⌋ - 1).toNat (by omega))
    have m2 := hr _ (getD_mem_of_lt l (⌊idx⌋).toNat (by omega))
    apply wrap64_of_isInt64
    unfold isInt64 at *
    omega

/-- The facts about one percentile rank that the ordering proof uses. -/
theorem rank_facts (p : ℤ) (n : ℕ) (hp : 0 ≤ p) (hp99 : p ≤ 99) (hn : 1 ≤ n) :
    1 ≤ ⌊rankIndex p n⌋ ∧ ⌊rankIndex p n⌋ ≤ n ∧
      (rankIndex p n ≠ (⌊rankIndex p n⌋ : ℤ) → ⌊rankIndex p n⌋ < n) ∧
      rankIndex p n - (⌊rankIndex p n⌋ : ℤ) ≤ 1 - 1 / 2 ^ 52 := by
  obtain ⟨b1, b2, b3⟩ := floor_rankIndex_bounds p n hp hp99 hn
  exact ⟨b1, b2, b3, (rankIndex_conv p n hp hn).2.2.2⟩

/-- On an ascending non-empty slice of `int64` values whose spread fits `int64`, the
percentile values are ordered, and they lie between the first and the last element. -/
theorem percentile_chain (s : List ℤ) (hs : s.Sorted (· ≤ ·)) (hne : s ≠ [])
    (hr : ∀ x ∈ s, isInt64 x) (hsp : ∀ a ∈ s, ∀ b ∈ s, b - a ≤ maxInt64) :
    s.getD 0 0 ≤ percentileValue s (rankIndex 50 s.length) ∧
    percentileValue s (rankIndex 50 s.length) ≤ percentileValue s (rankIndex 75 s.length) ∧
    percentileValue s (rankIndex 75 s.length) ≤ percentileValue s (rankIndex 90 s.length) ∧
    percentileValue s (rankIndex 90 s.length) ≤ percentileValue s (rankIndex 95 s.length) ∧
    percentileValue s (rankIndex 95 s.length) ≤ percentileValue s (rankIndex 99 s.length) ∧
    percentileValue s (rankIndex 99 s.length) ≤ s.getD (s.length - 1) 0 := by
  have hn : 1 ≤ s.length := List.length_pos.mpr hne
  obtain ⟨a1, a2, a3, a4⟩ := rank_facts 50 s.length (by norm_num) (by norm_num) hn
  obtain ⟨b1, b2, b3, b4⟩ := rank_facts 75 s.length (by norm_num) (by norm_num) hn
  obtain ⟨c1, c2, c3, c4⟩ := rank_facts 90 s.length (by norm_num) (by norm_num) hn
  obtain ⟨d1, d2, d3, d4⟩ := rank_facts 95 s.length (by norm_num) (by norm_num) hn
  obtain ⟨e1, e2, e3, e4⟩ := rank_facts 99 s.length (by norm_num) (by norm_num) hn
  rw [percentileValue_eq_interp s _ hs hr hsp a1 a3 a4,
    percentileValue_eq_interp s _ hs hr hsp b1 b3 b4,
    percentileValue_eq_interp s _ hs hr hsp c1 c3 c4,
    percentileValue_eq_interp s _ hs hr hsp d1 d3 d4,
    percentileValue_eq_interp s _ hs hr hsp e1 e3 e4]
  refine ⟨?_, ?_, ?_, ?_, ?_, ?_⟩
  · have h0 : s.getD 0 0 ≤ s.getD (⌊rankIndex 50 s.length⌋ - 1).toNat 0 :=
      sorted_getD_le hs (Nat.zero_le _) (by omega)
    by_cases h : rankIndex 50 s.length = (⌊rankIndex 50 s.length⌋ : ℤ)
    · rw [interp_of_int s _ h]; exact h0
    · exact h0.trans (interp_bounds s _ hs hsp a1 (a3 h) a4).1
  · exact interp_mono s _ _ hs hsp
      (rankIndex_mono 50 75 _ (by norm_num) (by norm_num) hn) a1 b2 b3 a4 b4
  · exact interp_mono s _ _ hs hsp
      (rankIndex_mono 75 90 _ (by norm_num) (by norm_num) hn) b1 c2 c3 b4 c4
  · exact interp_mono s _ _ hs hsp
      (rankIndex_mono 90 95 _ (by norm_num) (by norm_num) hn) c1 d2 d3 c4 d4
  · exact interp_mono s _ _ hs hsp
      (rankIndex_mono 95 99 _ (by norm_num) (by norm_num) hn) d1 e2 e3 d4 e4
  · by_cases h : rankIndex 99 s.length = (⌊rankIndex 99 s.length⌋ : ℤ)
    · rw [interp_of_int s _ h]
      exact sorted_getD_le hs (by omega) (by omega)
    · have hlt := e3 h
      exact (interp_bounds s _ hs hsp e1 hlt e4).2.trans
        (sorted_getD_le hs (by omega) (by omega))

/-- C7: the latency distribution does not depend on the order of the samples.  For
every latency key and every two lists of completed samples that are permutations of each
other `computeLatencyStats` returns the same result, and for a non-empty list that
result is a `LatencyStats` (no fault). -/
theorem computeLatencyStats_perm (key : Response → Duration) (c₁ c₂ : List Response)
    (h : c₁.Perm c₂) :
    computeLatencyStats c₁ key = computeLatencyStats c₂ key ∧
      (c₁ ≠ [] → ∃ s, computeLatencyStats c₁ key = .ok s) := by
  constructor
  · unfold computeLatencyStats
    rw [sortSlice_eq_of_perm (h.map key)]
  · intro hne
    exact ⟨_, computeLatencyStats_ok c₁ key hne⟩

/-- The order independence at the two-sample list `[sampleOk, sampleLate]` and its swap. -/
theorem computeLatencyStats_perm_witness :
    [sampleOk, sampleLate].Perm [sampleLate, sampleOk] ∧
    (computeLatencyStats [sampleOk, sampleLate] Response.TotalLatency
        = computeLatencyStats [sampleLate, sampleOk] Response.TotalLatency ∧
      ([sampleOk, sampleLate] ≠ [] →
        ∃ s, computeLatencyStats [sampleOk, sampleLate] Response.TotalLatency = .ok s)) :=
  ⟨List.Perm.swap _ _ _,
    computeLatencyStats_perm Response.TotalLatency _ _ (List.Perm.swap _ _ _)⟩

/-- C6: for every non-empty list of completed samples and every latency key whose
values are `int64` durations with a sum within the `int64` range, `computeLatencyStats`
returns a `LatencyStats` whose `Minimum` is the first element of the ascending-sorted
durations and a lower bound of all of them, whose `Maximum` is the last element and an
upper bound of all of them, and whose `Average` is the sum of the durations divided by
their count, by Go's integer division. -/
theorem computeLatencyStats_min_max_average (completed : List Response)
    (key : Response → Duration) (hne : completed ≠ [])
    (hr : ∀ r ∈ completed, isInt64 (key r)) (hsum : isInt64 (completed.map key).sum) :
    ∃ s, computeLatencyStats completed key = .ok s ∧
      (sortSlice (completed.map key)).head? = some s.Minimum ∧
      (sortSlice (completed.map key)).getLast? = some s.Maximum ∧
      (∀ r ∈ completed, s.Minimum ≤ key r ∧ key r ≤ s.Maximum) ∧
      s.Average = Int.tdiv (completed.map key).sum (completed.length : ℤ) := by
  refine ⟨_, computeLatencyStats_ok completed key hne, ?_⟩
  have hperm := sortSlice_perm (completed.map key)
  have hlen : (sortSlice (completed.map key)).length = completed.length := by
    rw [sortSlice_length, List.length_map]
  have hpos : 0 < completed.length := List.length_pos.mpr hne
  have hs : sortSlice (completed.map key) ≠ [] := by
    intro h; rw [h] at hlen; simp at hlen; omega
  have hsorted := sortSlice_sorted (completed.map key)
  have hrange : ∀ x ∈ sortSlice (completed.map key), isInt64 x := by
    intro x hx
    obtain ⟨r, hr1, rfl⟩ := List.mem_map.mp (hperm.mem_iff.mp hx)
    exact hr r hr1
  obtain ⟨hmin, hmax⟩ := foldl_accumulate_sorted _ hsorted hs hrange
  simp only
  rw [hmin, hmax, foldl_accumulate_total, if_neg hs, hperm.sum_eq, zero_add,
    wrap64_of_isInt64 hsum]
  refine ⟨?_, ?_, ?_, by rw [hlen]⟩
  · rw [List.head?_eq_getElem?, List.getElem?_eq_getElem (by omega),
      List.getD_eq_getElem _ _ (by omega)]
  · rw [List.getLast?_eq_getElem?, List.getElem?_eq_getElem (by omega),
      List.getD_eq_getElem _ _ (by omega)]
  · intro r hr1
    have hx : key r ∈ sortSlice (completed.map key) :=
      hperm.mem_iff.mpr (List.mem_map_of_mem key hr1)
    obtain ⟨i, hi, hi2⟩ := mem_iff_getD _ _ hx
    rw [← hi2]
    exact ⟨sorted_getD_le hsorted (Nat.zero_le i) hi,
      sorted_getD_le hsorted (by omega) (by omega)⟩

/-- The minimum, maximum and average at `[sampleOk, sampleError2]` under the total latency. -/
theorem computeLatencyStats_min_max_average_witness :
    ∃ s, computeLatencyStats [sampleOk, sampleError2] Response.TotalLatency = .ok s ∧
      (sortSlice ([sampleOk, sampleError2].map Response.TotalLatency)).head? = some s.Minimum ∧
      (sortSlice ([sampleOk, sampleError2].map Response.TotalLatency)).getLast?
        = some s.Maximum ∧
      (∀ r ∈ [sampleOk, sampleError2],
        s.Minimum ≤ Response.TotalLatency r ∧ Response.TotalLatency r ≤ s.Maximum) ∧
      s.Average = Int.tdiv ([sampleOk, sampleError2].map Response.TotalLatency).sum
        (([sampleOk, sampleError2].length : ℕ) : ℤ) :=
  computeLatencyStats_min_max_average [sampleOk, sampleError2] Response.TotalLatency
    (by decide) (by decide) (by decide)

/-- C3: for every non-empty list of completed samples and every latency key, the
`LatencyStats` that `computeLatencyStats` returns satisfies
`Minimum ≤ p50 ≤ p75 ≤ p90 ≤ p95 ≤ p99 ≤ Maximum`.  The durations range over the domain
of the program: `int64` values whose largest minus smallest is within the `int64` range,
which holds of every list of non-negative durations, and the elapsed times that `worker`
records are non-negative. -/
theorem computeLatencyStats_percentiles_ordered (completed : List Response)
    (key : Response → Duration) (hne : completed ≠ [])
    (hr : ∀ r ∈ completed, isInt64 (key r))
    (hsp : ∀ r₁ ∈ completed, ∀ r₂ ∈ completed, key r₂ - key r₁ ≤ maxInt64) :
    ∃ s, computeLatencyStats completed key = .ok s ∧
      s.Minimum ≤ s.Percentiles.p50 ∧ s.Percentiles.p50 ≤ s.Percentiles.p75 ∧
      s.Percentiles.p75 ≤ s.Percentiles.p90 ∧ s.Percentiles.p90 ≤ s.Percentiles.p95 ∧
      s.Percentiles.p95 ≤ s.Percentiles.p99 ∧ s.Percentiles.p99 ≤ s.Maximum := by
  refine ⟨_, computeLatencyStats_ok completed key hne, ?_⟩
  have hperm := sortSlice_perm (completed.map key)
  have hlen : (sortSlice (completed.map key)).length = completed.length := by
    rw [sortSlice_length, List.length_map]
  have hpos : 0 < completed.length := List.length_pos.mpr hne
  have hs : sortSlice (completed.map key) ≠ [] := by
    intro h; rw [h] at hlen; simp at hlen; omega
  have hsorted := sortSlice_sorted (completed.map key)
  have hrange : ∀ x ∈ sortSlice (completed.map key), isInt64 x := by
    intro x hx
    obtain ⟨r, hr1, rfl⟩ := List.mem_map.mp (hperm.mem_iff.mp hx)
    exact hr r hr1
  have hspread : ∀ a ∈ sortSlice (completed.map key),
      ∀ b ∈ sortSlice (completed.map key), b - a ≤ maxInt64 := by
    intro a ha b hb
    obtain ⟨r₁, h1, rfl⟩ := List.mem_map.mp (hperm.mem_iff.mp ha)
    obtain ⟨r₂, h2, rfl⟩ := List.mem_map.mp (hperm.mem_iff.mp hb)
    exact hsp r₁ h1 r₂ h2
  obtain ⟨hmin, hmax⟩ := foldl_accumulate_sorted _ hsorted hs hrange
  simp only
  rw [hmin, hmax]
  exact percentile_chain _ hsorted hs hrange hspread

/-- The ordered percentiles at `[sampleOk, sampleError2]` under the request latency. -/
theorem computeLatencyStats_percentiles_ordered_witness :
    ∃ s, computeLatencyStats [sampleOk, sampleError2] Response.RequestLatency = .ok s ∧
      s.Minimum ≤ s.Percentiles.p50 ∧ s.Percentiles.p50 ≤ s.Percentiles.p75 ∧
      s.Percentiles.p75 ≤ s.Percentiles.p90 ∧ s.Percentiles.p90 ≤ s.Percentiles.p95 ∧
      s.Percentiles.p95 ≤ s.Percentiles.p99 ∧ s.Percentiles.p99 ≤ s.Maximum :=
  computeLatencyStats_percentiles_ordered [sampleOk, sampleError2] Response.RequestLatency
    (by decide) (by decide) (by decide)

/-- C5 at `[sampleOk, sampleError, sampleError2]`: the errors group that
`splitResponses` returns holds only the last failed sample, so the three groups hold two
of the three samples, whatever capacities `append` picks. -/
theorem splitResponses_drops_error (grow : Nat → Nat) :
    splitResponses grow [sampleOk, sampleError, sampleError2]
      = ([sampleOk], [], [sampleError2]) := by
  simp [splitResponses, splitStep, splitInit, goAppend, goMake, Heap.read, sampleOk,
    sampleError, sampleError2]

/-- C1 at `[sampleOk, sampleError, sampleError2]`: `computeStats` returns a summary with
`TotalRequests = 3` whose four outcome counts add up to 2. -/
theorem computeStats_counts_short (grow : Nat → Nat) (pattern : String → Bool)
    (totalDuration : Duration) :
    ∃ s, computeStats grow pattern totalDuration [sampleOk, sampleError, sampleError2] = .ok s ∧
      s.TotalRequests = 3 ∧
      s.TotalMatches + s.TotalNonMatches + s.TotalTimeouts + s.TotalErrors = 2 := by
  have hsplit : splitResponses grow [sampleOk, sampleError, sampleError2]
      = ([sampleOk], [], [sampleError2]) := by
    simp [splitResponses, splitStep, splitInit, goAppend, goMake, Heap.read, sampleOk,
      sampleError, sampleError2]
  unfold computeStats
  simp only [hsplit, List.length_cons, List.length_nil]
  rw [computeLatencyStats_ok _ _ (by simp), computeLatencyStats_ok _ _ (by simp),
    computeLatencyStats_ok _ _ (by simp)]
  refine ⟨_, rfl, rfl, ?_⟩
  simp only [countMatches, List.foldl_cons, List.foldl_nil]
  split <;> rfl

/-- C2 at `[sampleTimeout]`: on a run whose only sample timed out, `computeStats` panics
with an integer division by zero. -/
theorem computeStats_all_timeouts_panics (grow : Nat → Nat) (pattern : String → Bool)
    (totalDuration : Duration) :
    computeStats grow pattern totalDuration [sampleTimeout] = .error .divideByZero := by
  have hsplit : splitResponses grow [sampleTimeout] = ([], [sampleTimeout], []) := by
    simp [splitResponses, splitStep, splitInit, goAppend, goMake, Heap.read, sampleTimeout]
  unfold computeStats
  simp only [hsplit, List.length_cons, List.length_nil]
  rfl

/-- C8 at `maxRequests = 2` with the deadline firing at the first `select` and a sample
arriving at the second: the loop of `CollectStats` goes on after the deadline and appends
the sample. -/
theorem collectLoop_appends_after_done (response : Response) :
    collectLoop (fun i => if i = 0 then SelectOutcome.done else SelectOutcome.received response)
      0 2 [] = [response] := by
  simp [collectLoop]

/-- Rounding keeps a value of moderate size on its side of the two neighbouring
integers: the points `a + 1/128` and `a + 127/128` are `float64` values. -/
theorem fl_between (a : ℤ) (x : ℚ) (ha0 : 0 ≤ a) (ha : a ≤ 2 ^ 45 + 1)
    (h1 : (a : ℚ) + 1 / 128 ≤ x) (h2 : x ≤ (a : ℚ) + 127 / 128) :
    (a : ℚ) + 1 / 128 ≤ fl x ∧ fl x ≤ (a : ℚ) + 127 / 128 := by
  have e : (2 : ℚ) ^ (-7 : ℤ) = 1 / 128 := by norm_num [zpow_neg]
  have hlo : fl ((a : ℚ) + 1 / 128) = (a : ℚ) + 1 / 128 := by
    have := fl_repr (128 * a + 1) (-7) (by omega) (by omega)
    rw [e] at this; push_cast at this
    rw [show (a : ℚ) + 1 / 128 = (128 * (a : ℚ) + 1) * (1 / 128) by ring]; exact this
  have hhi : fl ((a : ℚ) + 127 / 128) = (a : ℚ) + 127 / 128 := by
    have := fl_repr (128 * a + 127) (-7) (by omega) (by omega)
    rw [e] at this; push_cast at this
    rw [show (a : ℚ) + 127 / 128 = (128 * (a : ℚ) + 127) * (1 / 128) by ring]; exact this
  have ha0q : (0 : ℚ) ≤ (a : ℚ) := by exact_mod_cast ha0
  have hx0 : 0 ≤ x := by linarith
  constructor
  · rw [← hlo]; exact fl_mono (by linarith) h1
  · rw [← hhi]; exact fl_mono hx0 h2

/-- The `float64` rank against the exact rank `p * (n - 1) / 100 + 1`, for a slice of at
most `2 ^ 45` elements: with `a` and `b` the quotient and remainder of `p * (n - 1)` by
100, the `float64` rank is `a + 1` when `b = 0`, and lies strictly between `a + 1` and
`a + 2` otherwise. -/
theorem rankIndex_exact (p : ℤ) (n : ℕ) (hp0 : 0 ≤ p) (hp : p ≤ 100) (hn1 : 1 ≤ n)
    (hn : n ≤ 2 ^ 45) :
    ((p * ((n : ℤ) - 1)) % 100 = 0 →
      rankIndex p n = (((p * ((n : ℤ) - 1)) / 100 + 1 : ℤ) : ℚ)) ∧
    ((p * ((n : ℤ) - 1)) % 100 ≠ 0 →
      (((p * ((n : ℤ) - 1)) / 100 + 1 : ℤ) : ℚ) + 1 / 128 ≤ rankIndex p n ∧
      rankIndex p n ≤ (((p * ((n : ℤ) - 1)) / 100 + 1 : ℤ) : ℚ) + 127 / 128) := by
  have hnn0 : (0 : ℤ) ≤ (n : ℤ) - 1 := by omega
  have hnn : (n : ℤ) - 1 ≤ 2 ^ 45 := by
    have : (n : ℤ) ≤ 2 ^ 45 := by exact_mod_cast hn
    omega
  have hN0 : 0 ≤ p * ((n : ℤ) - 1) := mul_nonneg hp0 hnn0
  have hN : p * ((n : ℤ) - 1) ≤ 100 * 2 ^ 45 := by nlinarith
  have hNn : p * ((n : ℤ) - 1) ≤ 100 * ((n : ℤ) - 1) := by nlinarith
  rw [rankIndex_eq, fl_intCast p hp0 (by omega), fl_intCast _ hnn0 (by omega)]
  rw [show (p : ℚ) * (((n : ℤ) - 1 : ℤ) : ℚ) = ((p * ((n : ℤ) - 1) : ℤ) : ℚ) by push_cast; ring]
  rw [fl_intCast _ hN0 (by omega)]
  generalize p * ((n : ℤ) - 1) = N at *
  have hdm := Int.ediv_add_emod N 100
  have hb0 := Int.emod_nonneg N (by norm_num : (100 : ℤ) ≠ 0)
  have hb1 := Int.emod_lt_of_pos N (by norm_num : (0 : ℤ) < 100)
  have ha0 : 0 ≤ N / 100 := Int.ediv_nonneg hN0 (by norm_num)
  have hNq : (N : ℚ) = 100 * ((N / 100 : ℤ) : ℚ) + ((N % 100 : ℤ) : ℚ) := by
    exact_mod_cast hdm.symm
  constructor
  · intro hb
    rw [hb] at hNq
    have hx : (N : ℚ) / 100 = ((N / 100 : ℤ) : ℚ) := by rw [hNq]; push_cast; ring
    rw [hx, fl_intCast _ ha0 (by omega)]
    rw [show (((N / 100 : ℤ) : ℚ) + 1) = ((N / 100 + 1 : ℤ) : ℚ) by push_cast; ring]
    exact fl_intCast _ (by omega) (by omega)
  · intro hb
    have hbq1 : (1 : ℚ) ≤ ((N % 100 : ℤ) : ℚ) := by
      have : (1 : ℤ) ≤ N % 100 := by omega
      exact_mod_cast this
    have hbq2 : ((N % 100 : ℤ) : ℚ) ≤ 99 := by
      have : N % 100 ≤ (99 : ℤ) := by omega
      exact_mod_cast this
    have hx : (N : ℚ) / 100 = ((N / 100 : ℤ) : ℚ) + ((N % 100 : ℤ) : ℚ) / 100 := by
      rw [hNq]; ring
    obtain ⟨z1, z2⟩ := fl_between (N / 100) ((N : ℚ) / 100) ha0 (by omega)
      (by rw [hx]; linarith) (by rw [hx]; linarith)
    have := fl_between (N / 100 + 1) (fl ((N : ℚ) / 100) + 1) (by omega) (by omega)
      (by push_cast; linarith) (by push_cast; linarith)
    exact this

/-- For a slice of at most `2 ^ 45` elements the `float64` rank and the exact rank have
the same floor, are whole together, and the floor lies within the slice, strictly so
when the rank is not whole. -/
theorem rankIndex_agrees (p : ℤ) (n : ℕ) (hp0 : 0 ≤ p) (hp : p ≤ 100) (hn1 : 1 ≤ n)
    (hn : n ≤ 2 ^ 45) :
    ⌊rankIndex p n⌋ = ⌊specRank p n⌋ ∧
    (rankIndex p n = (⌊rankIndex p n⌋ : ℤ) ↔ specRank p n = (⌊specRank p n⌋ : ℤ)) ∧
    1 ≤ ⌊specRank p n⌋ ∧ ⌊specRank p n⌋ ≤ n ∧
    (specRank p n ≠ (⌊specRank p n⌋ : ℤ) → ⌊specRank p n⌋ < n) := by
  obtain ⟨e1, e2⟩ := rankIndex_exact p n hp0 hp hn1 hn
  have hnn0 : (0 : ℤ) ≤ (n : ℤ) - 1 := by omega
  have hN0 : 0 ≤ p * ((n : ℤ) - 1) := mul_nonneg hp0 hnn0
  have hNn : p * ((n : ℤ) - 1) ≤ 100 * ((n : ℤ) - 1) := by nlinarith
  have hR : specRank p n = ((p * ((n : ℤ) - 1) : ℤ) : ℚ) / 100 + 1 := by
    unfold specRank; push_cast; ring
  rw [hR]
  generalize p * ((n : ℤ) - 1) = N at *
  have hdm := Int.ediv_add_emod N 100
  have hb0 := Int.emod_nonneg N (by norm_num : (100 : ℤ) ≠ 0)
  have hb1 := Int.emod_lt_of_pos N (by norm_num : (0 : ℤ) < 100)
  have ha0 : 0 ≤ N / 100 := Int.ediv_nonneg hN0 (by norm_num)
  have hNq : (N : ℚ) = 100 * ((N / 100 : ℤ) : ℚ) + ((N % 100 : ℤ) : ℚ) := by
    exact_mod_cast hdm.symm
  have hbq0 : (0 : ℚ) ≤ ((N % 100 : ℤ) : ℚ) := by exact_mod_cast hb0
  have hbq1 : ((N % 100 : ℤ) : ℚ) ≤ 99 := by
    have : N % 100 ≤ (99 : ℤ) := by omega
    exact_mod_cast this
  have hRq : (N : ℚ) / 100 + 1 = ((N / 100 + 1 : ℤ) : ℚ) + ((N % 100 : ℤ) : ℚ) / 100 := by
    rw [hNq]; push_cast; ring
  have hfR : ⌊(N : ℚ) / 100 + 1⌋ = N / 100 + 1 := by
    rw [Int.floor_eq_iff, hRq]
    constructor <;> linarith
  rw [hfR]
  by_cases hb : N % 100 = 0
  · have hi := e1 hb
    have hbq : ((N % 100 : ℤ) : ℚ) = 0 := by exact_mod_cast hb
    rw [hi, Int.floor_intCast]
    refine ⟨rfl, ?_, by omega, by omega, ?_⟩
    · constructor
      · intro _; rw [hRq, hbq]; simp
      · intro _; rfl
    · intro hne; exfalso; apply hne; rw [hRq, hbq]; simp
  · obtain ⟨i1, i2⟩ := e2 hb
    have hbq : (1 : ℚ) ≤ ((N % 100 : ℤ) : ℚ) := by
      have : (1 : ℤ) ≤ N % 100 := by omega
      exact_mod_cast this
    have hfi : ⌊rankIndex p n⌋ = N / 100 + 1 := by
      rw [Int.floor_eq_iff]
      constructor <;> linarith
    rw [hfi]
    refine ⟨rfl, ?_, by omega, by omega, fun _ => by omega⟩
    constructor
    · intro h; exfalso; rw [h] at i1; linarith
    · intro h; exfalso; rw [hRq] at h; linarith

/-- C10: `computePercentile` never indexes outside its input.  For every slice of
durations of length `n` that the Go runtime can hold (at most `maxSliceLen`, `2 ^ 45`,
elements) and every integer `p` from 0 to 100, it returns 0 when `n = 0`; otherwise the
integer `int64(index)` the code computes in `float64` is the floor of the exact
`rank = p * (n - 1) / 100 + 1`, the code's test for a whole rank holds exactly when
`rank` is whole, `1 ≤ floor(rank) ≤ n`, `floor(rank) < n` whenever `rank` is not whole,
and the call returns a value, without an index fault. -/
theorem computePercentile_in_bounds (p : ℤ) (latencies : List Duration) (hp0 : 0 ≤ p)
    (hp : p ≤ 100) (hlen : latencies.length ≤ maxSliceLen) :
    (latencies = [] → computePercentile p latencies = .ok 0) ∧
    (latencies ≠ [] →
      truncQ (rankIndex p latencies.length) = ⌊specRank p latencies.length⌋ ∧
      (rankIndex p latencies.length = ofInt (truncQ (rankIndex p latencies.length)) ↔
        specRank p latencies.length = (⌊specRank p latencies.length⌋ : ℤ)) ∧
      1 ≤ ⌊specRank p latencies.length⌋ ∧
      ⌊specRank p latencies.length⌋ ≤ latencies.length ∧
      (specRank p latencies.length ≠ (⌊specRank p latencies.length⌋ : ℤ) →
        ⌊specRank p latencies.length⌋ < latencies.length) ∧
      ∃ v, computePercentile p latencies = .ok v) := by
  constructor
  · intro h; subst h; rfl
  · intro hne
    have hn1 : 1 ≤ latencies.length := List.length_pos.mpr hne
    have hlen2 : latencies.length ≤ 2 ^ 45 := hlen
    obtain ⟨a1, a2, a3, a4, a5⟩ := rankIndex_agrees p latencies.length hp0 hp hn1 hlen2
    obtain ⟨c1, c2, _, _⟩ := rankIndex_conv p latencies.length hp0 hn1
    refine ⟨c1.trans a1, ?_, a3, a4, a5, _, computePercentile_eq_of_bounds p latencies hp0 hne
      (by rw [a1]; exact a4) (fun h => ?_)⟩
    · rw [c2]; exact a2
    · rw [a1]; exact a5 (fun h2 => h (a2.mpr h2))

/-- The index bounds at the slice `[0, 100]` and `p = 100`. -/
theorem computePercentile_in_bounds_witness :
    (([0, 100] : List Duration) = [] → computePercentile 100 [0, 100] = .ok 0) ∧
    (([0, 100] : List Duration) ≠ [] →
      truncQ (rankIndex 100 ([0, 100] : List Duration).length)
        = ⌊specRank 100 ([0, 100] : List Duration).length⌋ ∧
      (rankIndex 100 ([0, 100] : List Duration).length
          = ofInt (truncQ (rankIndex 100 ([0, 100] : List Duration).length)) ↔
        specRank 100 ([0, 100] : List Duration).length
          = (⌊specRank 100 ([0, 100] : List Duration).length⌋ : ℤ)) ∧
      1 ≤ ⌊specRank 100 ([0, 100] : List Duration).length⌋ ∧
      ⌊specRank 100 ([0, 100] : List Duration).length⌋ ≤ ([0, 100] : List Duration).length ∧
      (specRank 100 ([0, 100] : List Duration).length
          ≠ (⌊specRank 100 ([0, 100] : List Duration).length⌋ : ℤ) →
        ⌊specRank 100 ([0, 100] : List Duration).length⌋ < ([0, 100] : List Duration).length) ∧
      ∃ v, computePercentile 100 [0, 100] = .ok v) :=
  computePercentile_in_bounds 100 [0, 100] (by decide) (by decide) (by decide)

theorem rank_error_chain (y z w : ℚ) (hy0 : 0 ≤ y) (hy : y ≤ 2 ^ 45)
    (h1 : z ≤ y * (1 + 1 / 2 ^ 53)) (h2 : y * (1 - 1 / 2 ^ 53) ≤ z)
    (h3 : w ≤ (z + 1) * (1 + 1 / 2 ^ 53)) (h4 : (z + 1) * (1 - 1 / 2 ^ 53) ≤ w) :
    |w - (y + 1)| ≤ (y + 1) / 2 ^ 52 := by
  rw [abs_le]
  norm_num at *
  constructor <;> linarith

/-- The `float64` rank is within `rank * 2 ^ -52` of the exact rank, for a slice of at
most `2 ^ 45` elements. -/
theorem rankIndex_error (p : ℤ) (n : ℕ) (hp0 : 0 ≤ p) (hp : p ≤ 100) (hn1 : 1 ≤ n)
    (hn : n ≤ 2 ^ 45) :
    |rankIndex p n - specRank p n| ≤ specRank p n / 2 ^ 52 := by
  have hnn0 : (0 : ℤ) ≤ (n : ℤ) - 1 := by omega
  have hnn : (n : ℤ) - 1 ≤ 2 ^ 45 := by
    have : (n : ℤ) ≤ 2 ^ 45 := by exact_mod_cast hn
    omega
  have hN0 : 0 ≤ p * ((n : ℤ) - 1) := mul_nonneg hp0 hnn0
  have hN : p * ((n : ℤ) - 1) ≤ 100 * 2 ^ 45 := by nlinarith
  have hR : specRank p n = ((p * ((n : ℤ) - 1) : ℤ) : ℚ) / 100 + 1 := by
    unfold specRank; push_cast; ring
  rw [hR, rankIndex_eq, fl_intCast p hp0 (by omega), fl_intCast _ hnn0 (by omega)]
  rw [show (p : ℚ) * (((n : ℤ) - 1 : ℤ) : ℚ) = ((p * ((n : ℤ) - 1) : ℤ) : ℚ) by push_cast; ring]
  rw [fl_intCast _ hN0 (by omega)]
  generalize p * ((n : ℤ) - 1) = N at *
  have hy0 : (0 : ℚ) ≤ (N : ℚ) / 100 := by
    have : (0 : ℚ) ≤ (N : ℚ) := by exact_mod_cast hN0
    positivity
  have hy : (N : ℚ) / 100 ≤ 2 ^ 45 := by
    have : (N : ℚ) ≤ ((100 * 2 ^ 45 : ℤ) : ℚ) := by exact_mod_cast hN
    push_cast at this; linarith
  have hz0 := fl_nonneg hy0
  exact rank_error_chain _ _ _ hy0 hy (fl_le_mul hy0) (sub_le_fl hy0)
    (fl_le_mul (by linarith)) (sub_le_fl (by linarith))

/-- C4, as stated, fails: for the sorted durations `[0, 100]` and `p = 90` the rank is
1.9 and the rank rule gives `0 + 100 * 0.9 = 90`, but `computePercentile` returns 89,
because the `float64` rank lies just below 1.9. -/
theorem computePercentile_below_rank_rule :
    computePercentile 90 [0, 100] = .ok 89 ∧ specPercentile 90 [0, 100] = 90 := by
  constructor <;> decide!

/-- C4, as amended: `computePercentile` evaluates the rank rule in `float64`.  For every
non-empty ascending slice `l` of at most `maxSliceLen` `int64` durations whose spread fits
`int64`, and every `p` from 0 to 100, with `rank = p * (n - 1) / 100 + 1` and
`i = floor(rank)`: when `rank` is whole the call returns the sample at `rank`, which is
the value of the exact rank rule; otherwise it returns the sample at `i` plus the
truncated `float64` product of the gap to the next sample and a weight `δ` that is
within `rank * 2 ^ -52` of the fractional part of `rank`, a value between the two
samples.  For `[10ms, 20ms, 30ms, 40ms]` and `p = 50` it returns exactly 25ms. -/
theorem computePercentile_rank_rule (p : ℤ) (l : List ℤ) (hp0 : 0 ≤ p) (hp : p ≤ 100)
    (hne : l ≠ []) (hlen : l.length ≤ maxSliceLen) (hs : l.Sorted (· ≤ ·))
    (hr : ∀ x ∈ l, isInt64 x) (hsp : ∀ a ∈ l, ∀ b ∈ l, b - a ≤ maxInt64) :
    (∃ v, computePercentile p l = .ok v ∧
      (specRank p l.length = (⌊specRank p l.length⌋ : ℤ) →
        v = l.getD (⌊specRank p l.length⌋ - 1).toNat 0 ∧ v = specPercentile p l) ∧
      (specRank p l.length ≠ (⌊specRank p l.length⌋ : ℤ) →
        ∃ δ : ℚ,
          |δ - (specRank p l.length - (⌊specRank p l.length⌋ : ℤ))|
            ≤ specRank p l.length / 2 ^ 52 ∧
          v = l.getD (⌊specRank p l.length⌋ - 1).toNat 0 +
            ⌊fl (fl ((l.getD (⌊specRank p l.length⌋).toNat 0
              - l.getD (⌊specRank p l.length⌋ - 1).toNat 0 : ℤ) : ℚ) * δ)⌋ ∧
          l.getD (⌊specRank p l.length⌋ - 1).toNat 0 ≤ v ∧
          v ≤ l.getD (⌊specRank p l.length⌋).toNat 0)) ∧
    computePercentile 50 [10000000, 20000000, 30000000, 40000000] = .ok 25000000 := by
  refine ⟨?_, by decide!⟩
  have hn1 : 1 ≤ l.length := List.length_pos.mpr hne
  have hlen2 : l.length ≤ 2 ^ 45 := hlen
  obtain ⟨a1, a2, a3, a4, a5⟩ := rankIndex_agrees p l.length hp0 hp hn1 hlen2
  obtain ⟨_, _, _, c4⟩ := rankIndex_conv p l.length hp0 hn1
  have herr := rankIndex_error p l.length hp0 hp hn1 hlen2
  have b3 : rankIndex p l.length ≠ (⌊rankIndex p l.length⌋ : ℤ) →
      ⌊rankIndex p l.length⌋ < l.length := fun h => by
    rw [a1]; exact a5 (fun h2 => h (a2.mpr h2))
  have hv := computePercentile_eq_of_bounds p l hp0 hne (by rw [a1]; exact a4) b3
  have hpv := percentileValue_eq_interp l (rankIndex p l.length) hs hr hsp
    (by rw [a1]; exact a3) b3 c4
  rw [hpv] at hv
  refine ⟨_, hv, ?_, ?_⟩
  · intro hint
    have hi := interp_of_int l _ (a2.mpr hint)
    rw [a1] at hi
    refine ⟨hi, ?_⟩
    rw [hi]
    unfold specPercentile
    simp only
    rw [show (specRank p l.length).floor = ⌊specRank p l.length⌋ from rfl, if_pos hint]
  · intro hne2
    have hni : rankIndex p l.length ≠ (⌊rankIndex p l.length⌋ : ℤ) :=
      fun h => hne2 (a2.mp h)
    have hlt := b3 hni
    obtain ⟨i1, i2⟩ := interp_bounds l (rankIndex p l.length) hs hsp
      (by rw [a1]; exact a3) hlt c4
    rw [a1] at i1 i2 hlt
    refine ⟨rankIndex p l.length - (⌊specRank p l.length⌋ : ℤ), ?_, ?_, i1, i2⟩
    · rw [show rankIndex p l.length - (⌊specRank p l.length⌋ : ℤ)
        - (specRank p l.length - (⌊specRank p l.length⌋ : ℤ))
        = rankIndex p l.length - specRank p l.length by ring]
      exact herr
    · have hlt' : (⌊specRank p l.length⌋).toNat < l.length := by omega
      have hle : (⌊specRank p l.length⌋ - 1).toNat ≤ (⌊specRank p l.length⌋).toNat := by
        omega
      have hd0 := sorted_getD_le hs hle hlt'
      have hd1 := hsp _ (getD_mem_of_lt l _ (lt_of_le_of_lt hle hlt')) _
        (getD_mem_of_lt l _ hlt')
      have hw : wrap64 (l.getD (⌊specRank p l.length⌋).toNat 0
          - l.getD (⌊specRank p l.length⌋ - 1).toNat 0)
          = l.getD (⌊specRank p l.length⌋).toNat 0
            - l.getD (⌊specRank p l.length⌋ - 1).toNat 0 := by
        apply wrap64_of_isInt64
        unfold isInt64 minInt64; unfold maxInt64 at *; omega
      have hδ0 : 0 ≤ rankIndex p l.length - (⌊specRank p l.length⌋ : ℤ) := by
        rw [← a1]; linarith [Int.floor_le (rankIndex p l.length)]
      have hd0q : (0 : ℚ) ≤ ((l.getD (⌊specRank p l.length⌋).toNat 0
          - l.getD (⌊specRank p l.length⌋ - 1).toNat 0 : ℤ) : ℚ) := by
        have : (0 : ℤ) ≤ l.getD (⌊specRank p l.length⌋).toNat 0
          - l.getD (⌊specRank p l.length⌋ - 1).toNat 0 := by omega
        exact_mod_cast this
      unfold interp
      rw [a1, hw, truncQ_of_nonneg (fl_nonneg (mul_nonneg (fl_nonneg hd0q) hδ0))]

/-- The `float64` rank rule at the slice `[0, 100]` and `p = 90`. -/
theorem computePercentile_rank_rule_witness :
    (∃ v, computePercentile 90 [0, 100] = .ok v ∧
      (specRank 90 ([0, 100] : List ℤ).length
          = (⌊specRank 90 ([0, 100] : List ℤ).length⌋ : ℤ) →
        v = ([0, 100] : List ℤ).getD (⌊specRank 90 ([0, 100] : List ℤ).length⌋ - 1).toNat 0 ∧
          v = specPercentile 90 [0, 100]) ∧
      (specRank 90 ([0, 100] : List ℤ).length
          ≠ (⌊specRank 90 ([0, 100] : List ℤ).length⌋ : ℤ) →
        ∃ δ : ℚ,
          |δ - (specRank 90 ([0, 100] : List ℤ).length
              - (⌊specRank 90 ([0, 100] : List ℤ).length⌋ : ℤ))|
            ≤ specRank 90 ([0, 100] : List ℤ).length / 2 ^ 52 ∧
          v = ([0, 100] : List ℤ).getD (⌊specRank 90 ([0, 100] : List ℤ).length⌋ - 1).toNat 0 +
            ⌊fl (fl ((([0, 100] : List ℤ).getD
                (⌊specRank 90 ([0, 100] : List ℤ).length⌋).toNat 0
              - ([0, 100] : List ℤ).getD
                (⌊specRank 90 ([0, 100] : List ℤ).length⌋ - 1).toNat 0 : ℤ) : ℚ) * δ)⌋ ∧
          ([0, 100] : List ℤ).getD (⌊specRank 90 ([0, 100] : List ℤ).length⌋ - 1).toNat 0 ≤ v ∧
          v ≤ ([0, 100] : List ℤ).getD (⌊specRank 90 ([0, 100] : List ℤ).length⌋).toNat 0)) ∧
    computePercentile 50 [10000000, 20000000, 30000000, 40000000] = .ok 25000000 :=
  computePercentile_rank_rule 90 [0, 100] (by decide) (by decide) (by decide) (by decide)
    (by decide) (by decide) (by decide)

end Gobench
